import Mathlib

/-!
# Verification of the frost-dalek-js binding layer

Shallow embedding of `src/src/lib.rs`, the napi binding around the
frost-dalek threshold-Schnorr (FROST) implementation.

Modelling conventions:
* Scalars of the ristretto group live in `ZMod q`; group elements are
  represented in the exponent (the commitment to a coefficient `c`, namely
  `c * B`, is represented by `c` itself).  This is the standard exponent
  model for Schnorr-style protocols: all the algebraic identities the
  protocol relies on are identities of the scalar field.
* The frost-dalek library itself, the `wrappers` module and the byte-level
  encodings are code of this repository (or its external collaborators)
  that is not under `src/`; those parts are modelled from the spec and
  every such definition carries a doc comment saying so.
* Rust `Box` handles (`into_boxed_handle` / `from_handle`) are modelled by
  an explicit handle store `HStore`; `Box::from_raw` on a handle removes
  the entry (ownership is taken and the box is dropped at the end of the
  call).  Dereferencing a dangling handle is undefined behaviour in the
  source; following §4.5/§7 of the spec it is modelled as the distinct
  fatal outcome `RRes.fatal .useAfterRelease`, and a Rust panic as
  `RRes.fatal .panicked`.
-/

namespace FrostJs

/-- Byte buffers crossing the FFI boundary.  Modelled from the spec:
group elements and scalars travel as fixed-width canonical encodings
(§6); a "byte" is represented abstractly as a field element and a
32-wide encoding pads with 31 zeros. -/
abbrev Buff (q : ℕ) := List (ZMod q)

/-- Modelled from the spec: the canonical fixed-width (32) encoding of a
single group element / scalar. -/
def enc32 {q : ℕ} (x : ZMod q) : Buff q := List.replicate 31 0 ++ [x]

/-- Modelled from the spec: decoding a canonical 32-wide buffer; any
buffer that is not a canonical encoding is rejected. -/
def dec32 {q : ℕ} (b : Buff q) : Option (ZMod q) :=
  if b.length = 32 ∧ b.take 31 = List.replicate 31 0 then b.getLast? else none

/-- Modelled from the spec: the 64-wide signature encoding
(commitment point `R` followed by response scalar `z`), as produced by
`ThresholdSignature::to_ed25519`. -/
def enc64 {q : ℕ} (R z : ZMod q) : Buff q := enc32 R ++ enc32 z

/-- The handle store modelling the Rust heap of `Box`ed protocol objects
(`into_boxed_handle` / `from_handle` in lib.rs).  `next` is the next
fresh handle, `entries` the live allocations. -/
structure HStore (α : Type) where
  next : ℕ
  entries : List (ℕ × α)
deriving DecidableEq

/-- An empty heap; handles start at 1 (a nonnull pointer). -/
def HStore.empty {α : Type} : HStore α := ⟨1, []⟩

/-- `into_boxed_handle`: allocate a fresh box, return its handle. -/
def HStore.alloc {α : Type} (st : HStore α) (a : α) : ℕ × HStore α :=
  (st.next, ⟨st.next + 1, (st.next, a) :: st.entries⟩)

/-- Look up a live handle. -/
def HStore.get? {α : Type} (st : HStore α) (h : ℕ) : Option α :=
  (st.entries.find? (fun e => e.1 == h)).map (·.2)

/-- Remove a handle from the heap. -/
def HStore.remove {α : Type} (st : HStore α) (h : ℕ) : HStore α :=
  ⟨st.next, st.entries.filter (fun e => e.1 != h)⟩

/-- `from_handle`: `Box::from_raw` takes ownership of the allocation —
the entry leaves the heap; the returned `Option` is `none` exactly when
the handle is dangling (use after release, undefined behaviour). -/
def HStore.take {α : Type} (st : HStore α) (h : ℕ) : Option α × HStore α :=
  (st.get? h, st.remove h)

/-- Modelled from the spec: the failure of the frost-dalek
`compute_partial_signature` step (§4.4): the signer has no unused
commitment share left at the requested position. -/
inductive SignErr where
  | noUnusedCommitmentShares
deriving DecidableEq

/-- The reasons of the recoverable `napi::Error`s raised in lib.rs, one
constructor per distinct `Error::from_reason` message. -/
inductive Err where
  | verifyParticipantsFailed       -- "failed to verify participants!"
  | misbehaving (idxs : List ℕ)    -- "failed to generate distributed key. misbehaving participants: .."
  | secretSharesFailed             -- "failed to get secret shares"
  | invalidSecretShares            -- "invalid secret shares"
  | roundTwoFailed                 -- "failed to move to round two"
  | invalidParticipant             -- "invalid participant"
  | pubkeyFailed                   -- "failed to get public key"
  | finishFailed                   -- "failed to finish key generation"
  | invalidGroupKey                -- "invalid group key"
  | invalidCommitment              -- "invalid commitment provided"
  | invalidPublicKey               -- "invalid public key provided"
  | invalidSecretKey               -- "invalid secret key"
  | invalidSigners                 -- "invalid signers"
  | signFailed (e : SignErr)       -- "failed to sign message .."
  | invalidPartialSigs             -- "invalid partial signatures"
  | finalizeFailed                 -- "failed to finalize aggregation"
  | aggregateFailed                -- "failed to aggregate signatures"
  | sigVerifyFailed                -- "threshold signature verification failed!"
deriving DecidableEq

/-- Non-recoverable outcomes: a handle-lifecycle contract violation
(use after release, §4.5 of the spec: undefined behaviour in the
source) or a Rust panic. -/
inductive FatalKind where
  | useAfterRelease
  | panicked
deriving DecidableEq

/-- Result of one exported napi call: the Rust `Result` plus the fatal
outcomes that escape the `Result` type. -/
inductive RRes (α : Type) where
  | ok (a : α)
  | err (e : Err)
  | fatal (k : FatalKind)
deriving DecidableEq

/-- The public `Participant` record (spec §3): index, the `t` public
commitments (exponent model) and the proof of knowledge of the
constant-term coefficient. -/
structure Participant (q : ℕ) where
  index : ℕ
  commitments : List (ZMod q)
  proof_of_secret_key : ZMod q × ZMod q
deriving DecidableEq

/-- The secret polynomial coefficients of a participant (spec §3). -/
abbrev Coefficients (q : ℕ) := List (ZMod q)

/-- A secret share: the evaluation of `sender`'s polynomial at
`receiver`'s index (spec §3). -/
structure SecretShare (q : ℕ) where
  sender : ℕ
  receiver : ℕ
  value : ZMod q
deriving DecidableEq

/-- A participant's final public key share (spec §3, exponent model:
`share * B` is represented by `share`). -/
structure IndividualPublicKey (q : ℕ) where
  index : ℕ
  share : ZMod q
deriving DecidableEq

/-- A participant's final secret signing share (spec §3). -/
structure SecretKey (q : ℕ) where
  index : ℕ
  key : ZMod q
deriving DecidableEq

/-- One single-use nonce pair (hiding, binding), secret halves
(spec §3/§4.3). -/
structure NoncePair (q : ℕ) where
  d : ZMod q
  e : ZMod q
deriving DecidableEq

/-- The secret halves of a signer's commitment shares (spec §4.3). -/
structure SecretCommitmentShareList (q : ℕ) where
  index : ℕ
  shares : List (NoncePair q)
deriving DecidableEq

/-- The public halves of a signer's commitment shares, for broadcast
(spec §4.3; exponent model: the public points are the scalars). -/
structure PublicCommitmentShareList (q : ℕ) where
  index : ℕ
  shares : List (ZMod q × ZMod q)
deriving DecidableEq

/-- A registered signer of one aggregation session: participant index
and published commitment share (hiding, binding). -/
structure PubSigner (q : ℕ) where
  index : ℕ
  hidingC : ZMod q
  bindingC : ZMod q
deriving DecidableEq

/-- One signer's contribution to the threshold signature (spec §3). -/
structure PartialSig (q : ℕ) where
  index : ℕ
  z : ZMod q
deriving DecidableEq

/-- Modelled from the spec: the externally supplied cryptographic
primitives (§1, out of scope: hashing-to-scalar and the Schnorr NIZK):
`mtb` is `message_to_buffer` (message pre-hash), `hc` the per-message
challenge hash (commitment, group key, message hash), `hb` the binding
factor hash (signer set, message hash, signer index), and
`pokProve`/`pokVerify` the proof of knowledge of the constant-term
coefficient, bound to the participant index. -/
structure HashModel (q : ℕ) where
  mtb : Buff q → Buff q
  hc : ZMod q → ZMod q → Buff q → ZMod q
  hb : List (PubSigner q) → Buff q → ℕ → ZMod q
  pokProve : ℕ → ZMod q → ZMod q × ZMod q
  pokVerify : ℕ → ZMod q → ZMod q × ZMod q → Bool

/-- Modelled from the spec: the `wrappers` module's `ParticipantWrapper`
(marshaling glue, not under src/): the scalar fields cross the boundary
directly, while the decoded group elements (`payload`) may be rejected
for a malformed encoding (`Option`). -/
structure ParticipantWrapper (q : ℕ) where
  index : ℕ
  payload : Option (Participant q)
deriving DecidableEq

/-- Wrapping a native participant for the boundary always succeeds. -/
def Participant.wrap {q : ℕ} (p : Participant q) : ParticipantWrapper q :=
  ⟨p.index, some p⟩

/-- Modelled from the spec: the remaining wrapper types of the missing
`wrappers` module; `none` models a value whose deserialization is
rejected. -/
abbrev SecretShareWrapper (q : ℕ) := Option (SecretShare q)

abbrev DualRistrettoWrap (q : ℕ) := Option (ZMod q × ZMod q)

abbrev PublicKeyWrapper (q : ℕ) := Option (IndividualPublicKey q)

abbrev SignerWrapper (q : ℕ) := Option (PubSigner q)

abbrev PartialSigWrapper (q : ℕ) := Option (PartialSig q)

abbrev SecretKeyWrapper (q : ℕ) := Option (SecretKey q)

/-- Horner evaluation of a coefficient list (constant term first), the
polynomial of a participant and its commitment polynomial alike. -/
def polyEval {q : ℕ} (cs : List (ZMod q)) (x : ZMod q) : ZMod q :=
  cs.foldr (fun c acc => c + x * acc) 0

/-- Sequence a list of possibly-rejected wrapper values, failing on the
first rejection (the `collect::<Option<Vec<_>>>` idiom of lib.rs). -/
def seqOpt {α : Type} : List (Option α) → Option (List α)
  | [] => some []
  | none :: _ => none
  | some a :: rest => (seqOpt rest).map (a :: ·)

/-! ## Identity and commitment layer (spec §4.1) -/

/-- Modelled from the spec: the secret polynomial coefficients sampled
by `Participant::new` from the platform RNG, made explicit as the input
stream `r`. -/
def coeffList {q : ℕ} (t : ℕ) (r : ℕ → ZMod q) : Coefficients q :=
  (List.range t).map r

/-- Modelled from the spec: `Participant::new` of frost-dalek (§4.1):
samples `t` coefficients, publishes their commitments (exponent model:
the coefficients themselves) and a proof of knowledge of the
constant-term coefficient bound to `own_index`. -/
def Participant.create {q : ℕ} (H : HashModel q) (idx t : ℕ) (r : ℕ → ZMod q) :
    Participant q × Coefficients q :=
  let cs := coeffList t r
  (⟨idx, cs, H.pokProve idx (cs.headD 0)⟩, cs)

/-- Result record of the exported `participate` (lib.rs line 34). -/
structure ParticipateRes (q : ℕ) where
  participant : ParticipantWrapper q
  coefficients_handle : ℕ
deriving DecidableEq

/-- The exported `participate` (lib.rs lines 34–45): builds the
parameters, creates the participant, boxes the private coefficients and
returns the public record plus the handle.  `n` (num_sig) is carried in
the parameters but not otherwise consulted by participant creation. -/
def participate {q : ℕ} (H : HashModel q) (st : HStore (Coefficients q))
    (uuid n t : ℕ) (r : ℕ → ZMod q) : HStore (Coefficients q) × ParticipateRes q :=
  let pc := Participant.create H uuid t r
  let hs := st.alloc pc.2
  let _ := n
  (hs.2, ⟨pc.1.wrap, hs.1⟩)

/-! ## DKG round one (spec §4.2, lib.rs lines 47–97) -/

/-- The per-participant admission check performed inline by the wrapper
(lib.rs lines 61–71): deserialize, fetch `public_key()` (the first
commitment), verify the proof of secret key. -/
def participantCheck {q : ℕ} (H : HashModel q) (w : ParticipantWrapper q) :
    Option (Participant q) := do
  let p ← w.payload
  let pubk ← p.commitments.head?
  if H.pokVerify p.index pubk p.proof_of_secret_key then some p else none

/-- The `collect::<Option<Vec<Participant>>>` of lib.rs lines 59–72:
short-circuits at the first participant failing `participantCheck`. -/
def collectVerified {q : ℕ} (H : HashModel q) :
    List (ParticipantWrapper q) → Option (List (Participant q))
  | [] => some []
  | w :: ws =>
    match participantCheck H w with
    | none => none
    | some p => (collectVerified H ws).map (p :: ·)

/-- Modelled from the spec: the admission predicate of
`DistributedKeyGeneration::new` (§4.1/§4.2), identical in content to
`participantCheck`. -/
def participantOk {q : ℕ} (H : HashModel q) (p : Participant q) : Bool :=
  p.commitments.head?.isSome &&
    H.pokVerify p.index (p.commitments.headD 0) p.proof_of_secret_key

/-- The round-one DKG state (spec §3/§4.2): own index and coefficients,
the verified peers, and the outgoing secret shares. -/
structure DkgR1 (q : ℕ) where
  myIndex : ℕ
  myCoeffs : Coefficients q
  peers : List (Participant q)
  theirShares : List (SecretShare q)
deriving DecidableEq

/-- Modelled from the spec: `DistributedKeyGeneration::<RoundOne>::new`
(§4.2): verifies every peer, accumulating the indices of all offenders;
on success evaluates the own polynomial at every participant index
(including one's own). -/
def dkgNew {q : ℕ} (H : HashModel q) (myIndex : ℕ) (cs : Coefficients q)
    (peers : List (Participant q)) : Except (List ℕ) (DkgR1 q) :=
  let bad := (peers.filter (fun p => !(participantOk H p))).map (·.index)
  if bad.isEmpty then
    .ok ⟨myIndex, cs, peers,
      (myIndex :: peers.map (·.index)).map
        (fun j => ⟨myIndex, j, polyEval cs (j : ZMod q)⟩)⟩
  else .error bad

/-- Result record of the exported round-one call (lib.rs line 90). -/
structure ShareRes (q : ℕ) where
  their_secret_shares : List (SecretShareWrapper q)
  state_handle : ℕ
deriving DecidableEq

/-- The exported `generate_their_shares_and_verify_participants`
(lib.rs lines 47–97).  The wrapper first verifies all peers itself with
a short-circuiting collect (error: a single generic reason string),
then takes the coefficients box from the heap, runs the frost-dalek
round-one constructor and boxes the resulting state.  `stC` is the heap
of coefficient boxes, `stD` the heap of round-one state boxes. -/
def generate_their_shares_and_verify_participants {q : ℕ} (H : HashModel q)
    (stC : HStore (Coefficients q)) (stD : HStore (DkgR1 q))
    (me : ParticipantWrapper q) (coefficients_handle : ℕ)
    (participants : List (ParticipantWrapper q)) (n t : ℕ) :
    HStore (Coefficients q) × HStore (DkgR1 q) × RRes (ShareRes q) :=
  let _ := (n, t)
  match collectVerified H participants with
  | none => (stC, stD, .err .verifyParticipantsFailed)
  | some ps =>
    match stC.take coefficients_handle with
    | (none, stC') => (stC', stD, .fatal .useAfterRelease)
    | (some cs, stC') =>
      match dkgNew H me.index cs ps with
      | .error idxs => (stC', stD, .err (.misbehaving idxs))
      | .ok state =>
        let hs := stD.alloc state
        (stC', hs.2, .ok ⟨state.theirShares.map some, hs.1⟩)

/-! ## DKG round two and finish (spec §4.2, lib.rs lines 99–132) -/

/-- Modelled from the spec: the share-consistency check of
`to_round_two` (§4.2): the share is addressed to me and matches the
sender's public commitment polynomial evaluated at my index (for the
self-share: my own coefficients). -/
def shareOk {q : ℕ} (st : DkgR1 q) (s : SecretShare q) : Bool :=
  (s.receiver == st.myIndex) &&
    (if s.sender == st.myIndex then
      polyEval st.myCoeffs (st.myIndex : ZMod q) == s.value
     else
      match st.peers.find? (fun p => p.index == s.sender) with
      | none => false
      | some p => polyEval p.commitments (st.myIndex : ZMod q) == s.value)

/-- Result record of the exported `derive_pubk_and_group_key`
(lib.rs line 127). -/
structure DeriveRes (q : ℕ) where
  gk : Buff q
  pubk : PublicKeyWrapper q
  sk : SecretKeyWrapper q
deriving DecidableEq

/-- The exported `derive_pubk_and_group_key` (lib.rs lines 99–132):
deserializes the received shares, takes the round-one state box, moves
to round two (count check plus share verification, spec §4.2), fetches
the own public key from the `me` record and finishes: the group key is
the sum of all constant-term commitments and the secret key the sum of
the received shares. -/
def derive_pubk_and_group_key {q : ℕ} (st : HStore (DkgR1 q)) (state_handle : ℕ)
    (me : ParticipantWrapper q) (my_secret_shares : List (SecretShareWrapper q)) :
    HStore (DkgR1 q) × RRes (DeriveRes q) :=
  match seqOpt my_secret_shares with
  | none => (st, .err .invalidSecretShares)
  | some shares =>
    match st.take state_handle with
    | (none, st') => (st', .fatal .useAfterRelease)
    | (some state, st') =>
      if shares.length == state.peers.length + 1 && shares.all (shareOk state) then
        match me.payload with
        | none => (st', .err .invalidParticipant)
        | some p =>
          match p.commitments.head? with
          | none => (st', .err .pubkeyFailed)
          | some pubk =>
            let gkVal := pubk + (state.peers.map (fun pr => pr.commitments.headD 0)).sum
            let secret := (shares.map (·.value)).sum
            (st', .ok ⟨enc32 gkVal, some ⟨state.myIndex, secret⟩, some ⟨state.myIndex, secret⟩⟩)
      else (st', .err .roundTwoFailed)

/-! ## Commitment-share generation (spec §4.3, lib.rs lines 134–141) -/

/-- Result record of the exported `gen_commitment_share_lists`. -/
structure GenCommitmentShareRes (q : ℕ) where
  public_comm_share : PublicCommitmentShareList q
  secret_comm_share_handle : ℕ
deriving DecidableEq

/-- Modelled from the spec: frost-dalek
`generate_commitment_share_lists` (§4.3): produces `count` single-use
nonce pairs from the RNG stream `r`, returning the public halves and
the secret halves. -/
def generate_commitment_share_lists {q : ℕ} (r : ℕ → ZMod q × ZMod q)
    (idx count : ℕ) : PublicCommitmentShareList q × SecretCommitmentShareList q :=
  let secrets := (List.range count).map (fun k => NoncePair.mk (r k).1 (r k).2)
  (⟨idx, secrets.map (fun p => (p.d, p.e))⟩, ⟨idx, secrets⟩)

/-- The exported `gen_commitment_share_lists` (lib.rs lines 134–141):
calls the library generator with the count fixed to `1`, boxes the
secret half and returns the public half plus the handle. -/
def gen_commitment_share_lists {q : ℕ} (r : ℕ → ZMod q × ZMod q)
    (st : HStore (SecretCommitmentShareList q)) (uuid : ℕ) :
    HStore (SecretCommitmentShareList q) × GenCommitmentShareRes q :=
  let pc := generate_commitment_share_lists r uuid 1
  let hs := st.alloc pc.2
  (hs.2, ⟨pc.1, hs.1⟩)

/-! ## Signature aggregator (spec §4.4, lib.rs lines 148–242) -/

/-- Modelled from the spec: the aggregator's signer registry is a
mapping from participant index to commitment pair with last write
winning (§3/§4.4), represented canonically as a list sorted by index;
`include_signer` is a sorted insert that replaces an entry with equal
index. -/
def includeSigner {q : ℕ} : List (PubSigner q) → PubSigner q → List (PubSigner q)
  | [], s => [s]
  | x :: xs, s =>
    if s.index < x.index then s :: x :: xs
    else if s.index == x.index then s :: xs
    else x :: includeSigner xs s

/-- Registering a batch of signers into an empty session, in order. -/
def registerAll {q : ℕ} (l : List (PubSigner q)) : List (PubSigner q) :=
  l.foldl includeSigner []

/-- The aggregator state of one signing session (spec §3):
parameters, group key, message and the registered signers. -/
structure AggState (q : ℕ) where
  n : ℕ
  t : ℕ
  gk : ZMod q
  message : Buff q
  signers : List (PubSigner q)
deriving DecidableEq

/-- The signer-registration loop of lib.rs lines 169–177: walks the
zipped `(commitment, public key)` pairs, failing on the first invalid
entry, and registers each valid pair under the public key's index. -/
def includeLoop {q : ℕ} :
    List (DualRistrettoWrap q × PublicKeyWrapper q) → List (PubSigner q) →
      Except Err (List (PubSigner q))
  | [], acc => .ok acc
  | (cw, pw) :: rest, acc =>
    match cw with
    | none => .error .invalidCommitment
    | some c =>
      match pw with
      | none => .error .invalidPublicKey
      | some pk => includeLoop rest (includeSigner acc ⟨pk.index, c.1, c.2⟩)

/-- Result record of the exported `get_aggregator_signers`
(lib.rs line 182). -/
structure GenAggregatorRes (q : ℕ) where
  signers : List (SignerWrapper q)
  aggregator_handle : ℕ
deriving DecidableEq

/-- The exported `get_aggregator_signers` (lib.rs lines 148–186):
decodes the group key, builds a fresh aggregator, registers the
element-wise zip of the commitment and public-key vectors (excess
entries of the longer vector are dropped by `zip`), boxes the
aggregator and returns the registered signer set plus the handle. -/
def get_aggregator_signers {q : ℕ} (st : HStore (AggState q))
    (threshold num_sig : ℕ) (group_key message : Buff q)
    (commitments : List (DualRistrettoWrap q))
    (public_keys : List (PublicKeyWrapper q)) :
    HStore (AggState q) × RRes (GenAggregatorRes q) :=
  match dec32 group_key with
  | none => (st, .err .invalidGroupKey)
  | some gk =>
    match includeLoop (commitments.zip public_keys) [] with
    | .error e => (st, .err e)
    | .ok signers =>
      let hs := st.alloc ⟨num_sig, threshold, gk, message, signers⟩
      (hs.2, .ok ⟨signers.map some, hs.1⟩)

/-! ## Partial signing (spec §4.4, lib.rs lines 188–219) -/

/-- The Lagrange interpolation weight at zero of node `i` relative to
the node set `S` (spec §4.4): the product over the other participating
indices `j` of `j / (j - i)`. -/
def lagrangeAtZero {q : ℕ} (S : Finset (ZMod q)) (i : ZMod q) : ZMod q :=
  ∏ j in S.erase i, j * (j - i)⁻¹

/-- The Lagrange weight of participant `i` over the participating
signer indices. -/
def lagrangeOf {q : ℕ} (idxs : List ℕ) (i : ℕ) : ZMod q :=
  lagrangeAtZero ((idxs.map (fun j : ℕ => (j : ZMod q))).toFinset) (i : ZMod q)

/-- The sum of the signers' published commitment shares with their
binding factors applied (spec §4.4): the commitment component `R` of
the final signature, recomputed identically by every signer and by the
aggregator. -/
def commitSum {q : ℕ} (H : HashModel q) (signers : List (PubSigner q))
    (mhash : Buff q) : ZMod q :=
  (signers.map (fun s => s.hidingC + H.hb signers mhash s.index * s.bindingC)).sum

/-- Modelled from the spec: frost-dalek `SecretKey::sign`
(`compute_partial_signature`, §4.4): consumes the nonce pair at
position `idx` of the commitment share list (failing with
`NoUnusedCommitmentShares` if none is there), derives the binding
factor and the challenge over the full signer set and message, and
responds with `d + ρ·e + λ·sk·c` where `λ` is the signer's Lagrange
weight over the participating indices. -/
def skSign {q : ℕ} (H : HashModel q) (sk : SecretKey q) (mhash : Buff q)
    (gk : ZMod q) (scsl : SecretCommitmentShareList q) (idx : ℕ)
    (signers : List (PubSigner q)) :
    Except SignErr (PartialSig q × SecretCommitmentShareList q) :=
  match scsl.shares.get? idx with
  | none => .error .noUnusedCommitmentShares
  | some np =>
    let R := commitSum H signers mhash
    let c := H.hc R gk mhash
    let z := np.d + H.hb signers mhash sk.index * np.e
      + lagrangeOf (signers.map (·.index)) sk.index * sk.key * c
    .ok (⟨sk.index, z⟩, ⟨scsl.index, scsl.shares.eraseIdx idx⟩)

/-- The exported `sign_partial` (lib.rs lines 188–219): deserializes
the secret key, decodes the group key, takes the secret commitment
share box from the heap (the box is dropped when the call returns, so
the handle dies with this call), deserializes the signer set and signs
with commitment-share position `0`. -/
def signPartial {q : ℕ} (H : HashModel q)
    (st : HStore (SecretCommitmentShareList q)) (skw : SecretKeyWrapper q)
    (group_key message : Buff q) (secret_comm_share_handle : ℕ)
    (signers : List (SignerWrapper q)) :
    HStore (SecretCommitmentShareList q) × RRes (PartialSig q) :=
  match skw with
  | none => (st, .err .invalidSecretKey)
  | some sk =>
    match dec32 group_key with
    | none => (st, .err .invalidGroupKey)
    | some gk =>
      let mhash := H.mtb message
      match st.take secret_comm_share_handle with
      | (none, st') => (st', .fatal .useAfterRelease)
      | (some scsl, st') =>
        match seqOpt signers with
        | none => (st', .err .invalidSigners)
        | some sgs =>
          match skSign H sk mhash gk scsl 0 sgs with
          | .error e => (st', .err (.signFailed e))
          | .ok sig => (st', .ok sig.1)

/-! ## Aggregation (spec §4.4, lib.rs lines 221–242) -/

/-- Modelled from the spec: the errors of the frost-dalek aggregator's
`finalize`/`aggregate` (§4.4/§7). -/
inductive AggErr where
  | insufficientSigners
  | missingPartialSig
deriving DecidableEq

/-- Modelled from the spec: `finalize` (§4.4): fixes the signer set,
failing with `InsufficientSigners` when it is smaller than the
threshold. -/
def finalizeAgg {q : ℕ} (st : AggState q) : Except AggErr (AggState q) :=
  if st.signers.length < st.t then .error .insufficientSigners else .ok st

/-- Modelled from the spec: `aggregate` (§4.4): every registered signer
must have supplied a partial signature (else `MissingPartialSignature`);
the signature is the recomputed commitment sum paired with the sum of
the responses. -/
def aggregateFin {q : ℕ} (H : HashModel q) (st : AggState q)
    (partials : List (PartialSig q)) : Except AggErr (ZMod q × ZMod q) :=
  match seqOpt (st.signers.map (fun s => partials.find? (fun p => p.index == s.index))) with
  | none => .error .missingPartialSig
  | some ps =>
    let mhash := H.mtb st.message
    .ok (commitSum H st.signers mhash, (ps.map (·.z)).sum)

/-- The exported `aggregate_signatures` (lib.rs lines 221–242): takes
the aggregator box from the heap, deserializes and includes the
partial signatures, finalizes and aggregates (each library error is
collapsed to a generic reason string), and returns the 64-wide
Ed25519-compatible encoding of the signature. -/
def aggregate_signatures {q : ℕ} (H : HashModel q) (st : HStore (AggState q))
    (aggreator_handle : ℕ) (signatures : List (PartialSigWrapper q)) :
    HStore (AggState q) × RRes (Buff q) :=
  match st.take aggreator_handle with
  | (none, st') => (st', .fatal .useAfterRelease)
  | (some agg, st') =>
    match seqOpt signatures with
    | none => (st', .err .invalidPartialSigs)
    | some ps =>
      match finalizeAgg agg with
      | .error _ => (st', .err .finalizeFailed)
      | .ok fin =>
        match aggregateFin H fin ps with
        | .error _ => (st', .err .aggregateFailed)
        | .ok sig => (st', .ok (enc64 sig.1 sig.2))

/-! ## Verification (lib.rs lines 244–265) -/

/-- Modelled from the spec: the external Ed25519 verification primitive
(§1, out of scope), in the exponent model: decode the fixed-width
signature `(R, z)` and check the Schnorr equation
`z·B = R + H(R, pk, m)·pk`. -/
def ed25519Verify {q : ℕ} (H : HashModel q) (pk : ZMod q) (mhash : Buff q)
    (sigB : Buff q) : Bool :=
  match dec32 (sigB.take 32), dec32 (sigB.drop 32) with
  | some R, some z => z == R + H.hc R pk mhash * pk
  | _, _ => false

/-- The exported `validate_signature` (lib.rs lines 244–265): decodes
the group key (recoverable error), re-encodes it for Ed25519 and
`.unwrap()`s the decode (panic on rejection), copies the signature
buffer into a 64-wide array (`copy_from_slice` panics unless the
length is exactly 64), and verifies. -/
def validate_signature {q : ℕ} (H : HashModel q)
    (group_key signature message : Buff q) : RRes Unit :=
  match dec32 group_key with
  | none => .err .invalidGroupKey
  | some gk =>
    match dec32 (enc32 gk) with
    | none => .fatal .panicked
    | some gkEd =>
      if signature.length == 64 then
        if ed25519Verify H gkEd (H.mtb message) signature then .ok ()
        else .err .sigVerifyFailed
      else .fatal .panicked

/-! ## The honest full protocol run (spec §8, Correctness)

The composite scenario of claim C1: `n` honest participants numbered
`1..n` run `participate`, `generate_their_shares_and_verify_participants`
and `derive_pubk_and_group_key`; a signer subset `S` then runs
`gen_commitment_share_lists`, `get_aggregator_signers`, `signPartial`
and `aggregate_signatures`, and the result is checked with
`validate_signature`.  Each call allocates on a fresh heap (the
JavaScript driver holds one handle per object); `cr i` is the RNG
stream of participant `i`, `nr i` the nonce stream of signer `i`. -/

/-- Participant `j`'s `participate` call. -/
def kgP {q : ℕ} (H : HashModel q) (n t : ℕ) (cr : ℕ → ℕ → ZMod q) (j : ℕ) :
    HStore (Coefficients q) × ParticipateRes q :=
  participate H HStore.empty j n t (cr j)

/-- The peer list participant `j` is given: every other participant's
broadcast record. -/
def peersW {q : ℕ} (H : HashModel q) (n t : ℕ) (cr : ℕ → ℕ → ZMod q) (j : ℕ) :
    List (ParticipantWrapper q) :=
  ((List.range n).map (fun k => (kgP H n t cr (k + 1)).2.participant)).filter
    (fun w => w.index != j)

/-- Participant `j`'s round-one call. -/
def kgR1 {q : ℕ} (H : HashModel q) (n t : ℕ) (cr : ℕ → ℕ → ZMod q) (j : ℕ) :
    HStore (Coefficients q) × HStore (DkgR1 q) × RRes (ShareRes q) :=
  generate_their_shares_and_verify_participants H (kgP H n t cr j).1 HStore.empty
    (kgP H n t cr j).2.participant (kgP H n t cr j).2.coefficients_handle
    (peersW H n t cr j) n t

/-- The shares addressed to participant `i`, one from each
participant's round-one output. -/
def sharesFor {q : ℕ} (H : HashModel q) (n t : ℕ) (cr : ℕ → ℕ → ZMod q) (i : ℕ) :
    List (SecretShareWrapper q) :=
  (List.range n).map (fun k =>
    match (kgR1 H n t cr (k + 1)).2.2 with
    | .ok sr => sr.their_secret_shares.findSome? (fun w =>
        w.bind (fun s => if s.receiver == i then some s else none))
    | _ => none)

/-- Participant `i`'s `derive_pubk_and_group_key` call. -/
def kgDerive {q : ℕ} (H : HashModel q) (n t : ℕ) (cr : ℕ → ℕ → ZMod q) (i : ℕ) :
    HStore (DkgR1 q) × RRes (DeriveRes q) :=
  derive_pubk_and_group_key (kgR1 H n t cr i).2.1
    (match (kgR1 H n t cr i).2.2 with
     | .ok sr => sr.state_handle
     | _ => 0)
    (kgP H n t cr i).2.participant (sharesFor H n t cr i)

/-- The group-key buffer, as derived by participant 1. -/
def gkBuffOf {q : ℕ} (H : HashModel q) (n t : ℕ) (cr : ℕ → ℕ → ZMod q) : Buff q :=
  match (kgDerive H n t cr 1).2 with
  | .ok d => d.gk
  | _ => []

/-- Participant `i`'s derived secret key wrapper. -/
def skOf {q : ℕ} (H : HashModel q) (n t : ℕ) (cr : ℕ → ℕ → ZMod q) (i : ℕ) :
    SecretKeyWrapper q :=
  match (kgDerive H n t cr i).2 with
  | .ok d => d.sk
  | _ => none

/-- Participant `i`'s derived public key wrapper. -/
def pubkOf {q : ℕ} (H : HashModel q) (n t : ℕ) (cr : ℕ → ℕ → ZMod q) (i : ℕ) :
    PublicKeyWrapper q :=
  match (kgDerive H n t cr i).2 with
  | .ok d => d.pubk
  | _ => none

/-- Signer `i`'s `gen_commitment_share_lists` call. -/
def signerGcl {q : ℕ} (nr : ℕ → ℕ → ZMod q × ZMod q) (i : ℕ) :
    HStore (SecretCommitmentShareList q) × GenCommitmentShareRes q :=
  gen_commitment_share_lists (nr i) HStore.empty i

/-- The `get_aggregator_signers` call over the signer subset `S`. -/
def aggRun {q : ℕ} (H : HashModel q) (n t : ℕ) (cr : ℕ → ℕ → ZMod q)
    (nr : ℕ → ℕ → ZMod q × ZMod q) (S : List ℕ) (msg : Buff q) :
    HStore (AggState q) × RRes (GenAggregatorRes q) :=
  get_aggregator_signers HStore.empty t n (gkBuffOf H n t cr) msg
    (S.map (fun i => (signerGcl nr i).2.public_comm_share.shares.get? 0))
    (S.map (pubkOf H n t cr))

/-- The signer set handed back by the aggregator. -/
def signersOf {q : ℕ} (H : HashModel q) (n t : ℕ) (cr : ℕ → ℕ → ZMod q)
    (nr : ℕ → ℕ → ZMod q × ZMod q) (S : List ℕ) (msg : Buff q) :
    List (SignerWrapper q) :=
  match (aggRun H n t cr nr S msg).2 with
  | .ok r => r.signers
  | _ => []

/-- Signer `i`'s `signPartial` call. -/
def partialOf {q : ℕ} (H : HashModel q) (n t : ℕ) (cr : ℕ → ℕ → ZMod q)
    (nr : ℕ → ℕ → ZMod q × ZMod q) (S : List ℕ) (msg : Buff q) (i : ℕ) :
    RRes (PartialSig q) :=
  (signPartial H (signerGcl nr i).1 (skOf H n t cr i) (gkBuffOf H n t cr) msg
    (signerGcl nr i).2.secret_comm_share_handle (signersOf H n t cr nr S msg)).2

/-- All signers' partial signatures, wrapped for the boundary. -/
def partialsW {q : ℕ} (H : HashModel q) (n t : ℕ) (cr : ℕ → ℕ → ZMod q)
    (nr : ℕ → ℕ → ZMod q × ZMod q) (S : List ℕ) (msg : Buff q) :
    List (PartialSigWrapper q) :=
  S.map (fun i =>
    match partialOf H n t cr nr S msg i with
    | .ok p => some p
    | _ => none)

/-- The `aggregate_signatures` call of the session. -/
def aggSigRes {q : ℕ} (H : HashModel q) (n t : ℕ) (cr : ℕ → ℕ → ZMod q)
    (nr : ℕ → ℕ → ZMod q × ZMod q) (S : List ℕ) (msg : Buff q) :
    HStore (AggState q) × RRes (Buff q) :=
  aggregate_signatures H (aggRun H n t cr nr S msg).1
    (match (aggRun H n t cr nr S msg).2 with
     | .ok r => r.aggregator_handle
     | _ => 0)
    (partialsW H n t cr nr S msg)

/-- The complete honest scenario: full DKG, signing session with the
subset `S`, aggregation and final verification of the aggregated
signature against the derived group key and the same message. -/
def fullRun {q : ℕ} (H : HashModel q) (n t : ℕ) (cr : ℕ → ℕ → ZMod q)
    (nr : ℕ → ℕ → ZMod q × ZMod q) (S : List ℕ) (msg : Buff q) : RRes Unit :=
  match (aggSigRes H n t cr nr S msg).2 with
  | .ok sigB => validate_signature H (gkBuffOf H n t cr) sigB msg
  | .err e => .err e
  | .fatal k => .fatal k

/-! ## Concrete instances over `ZMod 5` used to exercise the model -/

/-- A concrete hash model over the five-element field: hashes are simple
arithmetic digests and the proof of knowledge is a recomputable tag. -/
def W5 : HashModel 5 :=
  ⟨fun b => b,
   fun R gk m => R + gk + m.sum + 1,
   fun sg m i => (sg.map (·.hidingC)).sum + m.sum + (i : ZMod 5) + 2,
   fun i pk => ((i : ZMod 5) + pk, 3),
   fun i pk pr => pr == ((i : ZMod 5) + pk, 3)⟩

/-- The same hash model with a proof-of-knowledge verifier that rejects
everything: a world where every participant misbehaves. -/
def WFail : HashModel 5 :=
  ⟨fun b => b,
   fun R gk m => R + gk + m.sum + 1,
   fun sg m i => (sg.map (·.hidingC)).sum + m.sum + (i : ZMod 5) + 2,
   fun i pk => ((i : ZMod 5) + pk, 3),
   fun _ _ _ => false⟩

/-- A concrete coefficient RNG stream. -/
def crW : ℕ → ℕ → ZMod 5 := fun i k => (i : ZMod 5) + 2 * (k : ZMod 5) + 1

/-- A concrete nonce RNG stream. -/
def nrW : ℕ → ℕ → ZMod 5 × ZMod 5 :=
  fun i k => ((i : ZMod 5) + (k : ZMod 5) + 1, 2 * (i : ZMod 5) + (k : ZMod 5))

/-- Two concrete signer registrations (commitment pair, public key). -/
def WPairs : List ((ZMod 5 × ZMod 5) × IndividualPublicKey 5) :=
  [((1, 2), ⟨1, 3⟩), ((2, 4), ⟨2, 1⟩)]

/-- The same two registrations in the opposite order. -/
def WPairsRev : List ((ZMod 5 × ZMod 5) × IndividualPublicKey 5) :=
  [((2, 4), ⟨2, 1⟩), ((1, 2), ⟨1, 3⟩)]

/-! ## Derived values of the honest run -/

/-- The participant indices `1, …, n`. -/
def idxList (n : ℕ) : List ℕ := (List.range n).map (· + 1)

/-- The public record of honest participant `j`. -/
def honestPart {q : ℕ} (H : HashModel q) (t : ℕ) (cr : ℕ → ℕ → ZMod q) (j : ℕ) :
    Participant q :=
  (Participant.create H j t (cr j)).1

/-- The group key every honest participant derives: the sum of all
constant-term commitments. -/
def gkTotal {q : ℕ} (n t : ℕ) (cr : ℕ → ℕ → ZMod q) : ZMod q :=
  ((idxList n).map (fun k => (coeffList t (cr k)).headD 0)).sum

/-- The secret signing share participant `i` derives: the sum of all
participants' polynomials evaluated at `i`. -/
def skVal {q : ℕ} (n t : ℕ) (cr : ℕ → ℕ → ZMod q) (i : ℕ) : ZMod q :=
  ((idxList n).map (fun k => polyEval (coeffList t (cr k)) (i : ZMod q))).sum

/-- The signer record registered for signer `i` in the honest run. -/
def sigRec {q : ℕ} (nr : ℕ → ℕ → ZMod q × ZMod q) (i : ℕ) : PubSigner q :=
  ⟨i, (nr i 0).1, (nr i 0).2⟩

/-- The verified peer list of participant `j` in the honest run. -/
def peerParts {q : ℕ} (H : HashModel q) (n t : ℕ) (cr : ℕ → ℕ → ZMod q) (j : ℕ) :
    List (Participant q) :=
  ((idxList n).filter (fun k => k != j)).map (honestPart H t cr)

/-- The outgoing shares of participant `j` in the honest run. -/
def honestShares {q : ℕ} (n t : ℕ) (cr : ℕ → ℕ → ZMod q) (j : ℕ) :
    List (SecretShare q) :=
  (j :: (idxList n).filter (fun k => k != j)).map
    (fun i => ⟨j, i, polyEval (coeffList t (cr j)) (i : ZMod q)⟩)

/-- The round-one state of participant `j` in the honest run. -/
def dkgSt {q : ℕ} (H : HashModel q) (n t : ℕ) (cr : ℕ → ℕ → ZMod q) (j : ℕ) :
    DkgR1 q :=
  ⟨j, coeffList t (cr j), peerParts H n t cr j, honestShares n t cr j⟩

/-- The canonical registered signer set of the honest session. -/
def regS {q : ℕ} (nr : ℕ → ℕ → ZMod q × ZMod q) (S : List ℕ) : List (PubSigner q) :=
  registerAll (S.map (sigRec nr))

/-- The partial response signer `i` produces in the honest session. -/
def honestZ {q : ℕ} (H : HashModel q) (n t : ℕ) (cr : ℕ → ℕ → ZMod q)
    (nr : ℕ → ℕ → ZMod q × ZMod q) (S : List ℕ) (msg : Buff q) (i : ℕ) : ZMod q :=
  let mh := H.mtb msg
  let R0 := commitSum H (regS nr S) mh
  let c := H.hc R0 (gkTotal n t cr) mh
  (nr i 0).1 + H.hb (regS nr S) mh i * (nr i 0).2
    + lagrangeOf ((regS nr S).map (·.index)) i * skVal n t cr i * c

/-! ## Encoding lemmas -/

lemma enc32_length {q : ℕ} (x : ZMod q) : (enc32 x).length = 32 := by
  simp [enc32]

lemma dec32_enc32 {q : ℕ} (x : ZMod q) : dec32 (enc32 x) = some x := by
  simp [dec32, enc32, List.take_append_eq_append_take]

lemma enc64_take {q : ℕ} (R z : ZMod q) : (enc64 R z).take 32 = enc32 R := by
  simp [enc64, List.take_append_eq_append_take, enc32_length]

lemma enc64_drop {q : ℕ} (R z : ZMod q) : (enc64 R z).drop 32 = enc32 z := by
  simp [enc64, List.drop_append_eq_append_drop, enc32_length]

lemma enc64_length {q : ℕ} (R z : ZMod q) : (enc64 R z).length = 64 := by
  simp [enc64, enc32_length]

/-! ## Generic list lemmas -/

lemma seqOpt_map_some {α : Type} (l : List α) : seqOpt (l.map some) = some l := by
  induction l with
  | nil => rfl
  | cons a rest ih => simp [seqOpt, ih]

lemma seqOpt_map_of_forall {α β : Type} (l : List α) (f : α → Option β) (g : α → β)
    (h : ∀ x ∈ l, f x = some (g x)) : seqOpt (l.map f) = some (l.map g) := by
  induction l with
  | nil => rfl
  | cons a rest ih =>
    have ha := h a (by simp)
    simp only [List.map_cons, seqOpt, ha]
    rw [ih (fun x hx => h x (by simp [hx]))]
    rfl

lemma seqOpt_none_of_mem {α : Type} (l : List (Option α)) (h : none ∈ l) :
    seqOpt l = none := by
  induction l with
  | nil => simp at h
  | cons a rest ih =>
    cases a with
    | none => rfl
    | some b =>
      simp only [List.mem_cons, reduceCtorEq, false_or] at h
      simp [seqOpt, ih h]

lemma find?_map_eq {α : Type} (l : List ℕ) (i : ℕ) (f : ℕ → α) (pf : α → ℕ)
    (hpf : ∀ j, pf (f j) = j) (hmem : i ∈ l) :
    (l.map f).find? (fun a => pf a == i) = some (f i) := by
  induction l with
  | nil => simp at hmem
  | cons j rest ih =>
    by_cases hj : j = i
    · subst hj
      simp [List.find?_cons, hpf]
    · have : (pf (f j) == i) = false := by
        simp [hpf, hj]
      simp only [List.map_cons, List.find?_cons, this]
      refine ih ?_
      rcases List.mem_cons.mp hmem with h | h
      · exact absurd h.symm hj
      · exact h

lemma perm_cons_filter_ne (l : List ℕ) (i : ℕ) (hnd : l.Nodup) (hmem : i ∈ l) :
    List.Perm (i :: l.filter (fun k => k != i)) l := by
  induction l with
  | nil => simp at hmem
  | cons x xs ih =>
    by_cases hx : x = i
    · subst hx
      have hnotem : x ∉ xs := (List.nodup_cons.mp hnd).1
      have : xs.filter (fun k => k != x) = xs := by
        apply List.filter_eq_self.mpr
        intro a ha
        simp only [bne_iff_ne, ne_eq, decide_eq_true_eq]
        exact fun h => hnotem (h ▸ ha)
      simp [this]
    · have hmem' : i ∈ xs := by
        rcases List.mem_cons.mp hmem with h | h
        · exact absurd h.symm hx
        · exact h
      have hxi : (x != i) = true := by simp [bne_iff_ne]; exact hx
      have h1 : i :: (x :: xs).filter (fun k => k != i)
          = i :: x :: xs.filter (fun k => k != i) := by
        simp [List.filter_cons, hxi]
      rw [h1]
      exact List.Perm.trans (List.Perm.swap _ _ _)
        ((ih (List.nodup_cons.mp hnd).2 hmem').cons x)

lemma filter_map_comm {α β : Type} (l : List α) (f : α → β) (p : β → Bool) :
    (l.map f).filter p = (l.filter (fun a => p (f a))).map f := by
  induction l with
  | nil => rfl
  | cons a rest ih =>
    by_cases h : p (f a)
    · simp [List.filter_cons, h, ih]
    · simp only [Bool.not_eq_true] at h
      simp [List.filter_cons, h, ih]

lemma zip_map_pair {α β γ : Type} (l : List α) (f : α → β) (g : α → γ) :
    (l.map f).zip (l.map g) = l.map (fun a => (f a, g a)) := by
  induction l with
  | nil => rfl
  | cons a rest ih => simp [ih]

lemma sum_map_add_distrib {q : ℕ} {α : Type} (l : List α) (f g : α → ZMod q) :
    (l.map (fun a => f a + g a)).sum = (l.map f).sum + (l.map g).sum := by
  induction l with
  | nil => simp
  | cons a rest ih =>
    simp only [List.map_cons, List.sum_cons, ih]
    ring

/-! ## Signer registry lemmas -/

lemma includeSigner_mem {q : ℕ} (l : List (PubSigner q)) (s y : PubSigner q)
    (h : y ∈ includeSigner l s) : y = s ∨ y ∈ l := by
  induction l with
  | nil =>
    simp only [includeSigner, List.mem_singleton] at h
    exact Or.inl h
  | cons x xs ih =>
    simp only [includeSigner] at h
    split_ifs at h with h1 h2
    · rcases List.mem_cons.mp h with h' | h'
      · exact Or.inl h'
      · exact Or.inr h'
    · rcases List.mem_cons.mp h with h' | h'
      · exact Or.inl h'
      · exact Or.inr (List.mem_cons_of_mem x h')
    · rcases List.mem_cons.mp h with h' | h'
      · exact Or.inr (List.mem_cons.mpr (Or.inl h'))
      · rcases ih h' with h'' | h''
        · exact Or.inl h''
        · exact Or.inr (List.mem_cons_of_mem x h'')

lemma includeSigner_sorted {q : ℕ} (l : List (PubSigner q)) (s : PubSigner q)
    (h : l.Pairwise (fun a b => a.index < b.index)) :
    (includeSigner l s).Pairwise (fun a b => a.index < b.index) := by
  induction l with
  | nil => simp [includeSigner]
  | cons x xs ih =>
    have hx := List.pairwise_cons.mp h
    simp only [includeSigner]
    split_ifs with h1 h2
    · exact List.pairwise_cons.mpr ⟨fun y hy => by
        rcases List.mem_cons.mp hy with h' | h'
        · exact h' ▸ h1
        · exact h1.trans (hx.1 y h'), h⟩
    · have heq : s.index = x.index := by
        simpa using h2
      exact List.pairwise_cons.mpr ⟨fun y hy => heq ▸ hx.1 y hy, hx.2⟩
    · have hlt : x.index < s.index := by
        rcases Nat.lt_trichotomy s.index x.index with h' | h' | h'
        · exact absurd h' h1
        · exact absurd (by simpa using h') h2
        · exact h'
      refine List.pairwise_cons.mpr ⟨fun y hy => ?_, ih hx.2⟩
      rcases includeSigner_mem xs s y hy with h' | h'
      · exact h' ▸ hlt
      · exact hx.1 y h'

lemma includeSigner_perm_cons {q : ℕ} (l : List (PubSigner q)) (s : PubSigner q)
    (h : ∀ x ∈ l, s.index ≠ x.index) :
    List.Perm (includeSigner l s) (s :: l) := by
  induction l with
  | nil => simp [includeSigner]
  | cons x xs ih =>
    simp only [includeSigner]
    split_ifs with h1 h2
    · exact List.Perm.refl _
    · exact absurd (by simpa using h2) (h x (by simp))
    · refine List.Perm.trans ((ih (fun y hy => h y (List.mem_cons_of_mem x hy))).cons x) ?_
      exact List.Perm.swap _ _ _

lemma foldl_includeSigner_sorted {q : ℕ} (l acc : List (PubSigner q))
    (h : acc.Pairwise (fun a b => a.index < b.index)) :
    (l.foldl includeSigner acc).Pairwise (fun a b => a.index < b.index) := by
  induction l generalizing acc with
  | nil => exact h
  | cons s rest ih => exact ih _ (includeSigner_sorted acc s h)

lemma registerAll_sorted {q : ℕ} (l : List (PubSigner q)) :
    (registerAll l).Pairwise (fun a b => a.index < b.index) :=
  foldl_includeSigner_sorted l [] (by simp)

lemma foldl_includeSigner_perm {q : ℕ} (l : List (PubSigner q)) :
    ∀ acc : List (PubSigner q),
      (acc ++ l).Pairwise (fun a b => a.index ≠ b.index) →
      List.Perm (l.foldl includeSigner acc) (acc ++ l) := by
  induction l with
  | nil => intro acc _; simp
  | cons s rest ih =>
    intro acc h
    have hP := List.pairwise_append.mp h
    have hsa : ∀ x ∈ acc, s.index ≠ x.index :=
      fun x hx => (hP.2.2 x hx s (by simp)).symm
    have hpermacc : List.Perm (includeSigner acc s) (s :: acc) :=
      includeSigner_perm_cons acc s hsa
    have hmid : List.Perm (acc ++ s :: rest) (s :: (acc ++ rest)) :=
      List.perm_middle
    have hpair2 : ((s :: acc) ++ rest).Pairwise (fun a b => a.index ≠ b.index) :=
      (List.Perm.pairwise_iff (fun h' => Ne.symm h') (by simp only [List.cons_append]; exact hmid)).mp h
    have hpair3 : (includeSigner acc s ++ rest).Pairwise (fun a b => a.index ≠ b.index) :=
      (List.Perm.pairwise_iff (fun h' => Ne.symm h')
        (List.Perm.append_right rest hpermacc.symm)).mp hpair2
    have hfold := ih (includeSigner acc s) hpair3
    refine List.Perm.trans hfold ?_
    refine List.Perm.trans (List.Perm.append_right rest hpermacc) ?_
    exact hmid.symm

lemma registerAll_perm {q : ℕ} (l : List (PubSigner q))
    (h : l.Pairwise (fun a b => a.index ≠ b.index)) :
    List.Perm (registerAll l) l :=
  foldl_includeSigner_perm l [] (by simpa using h)

lemma sorted_perm_eq {q : ℕ} (l1 l2 : List (PubSigner q))
    (hp : List.Perm l1 l2)
    (h1 : l1.Pairwise (fun a b => a.index < b.index))
    (h2 : l2.Pairwise (fun a b => a.index < b.index)) : l1 = l2 := by
  induction l1 generalizing l2 with
  | nil => exact List.Perm.nil_eq hp
  | cons x xs ih =>
    cases l2 with
    | nil => exact absurd hp.symm (by simp)
    | cons y ys =>
      by_cases hxy : x = y
      · subst hxy
        have := ih ys hp.cons_inv (List.pairwise_cons.mp h1).2
          (List.pairwise_cons.mp h2).2
        rw [this]
      · exfalso
        have hxmem : x ∈ y :: ys := hp.mem_iff.mp (by simp)
        have hymem : y ∈ x :: xs := hp.symm.mem_iff.mp (by simp)
        have hx2 : x ∈ ys := by
          rcases List.mem_cons.mp hxmem with h' | h'
          · exact absurd h' hxy
          · exact h'
        have hy2 : y ∈ xs := by
          rcases List.mem_cons.mp hymem with h' | h'
          · exact absurd h'.symm hxy
          · exact h'
        have hlt1 : y.index < x.index := (List.pairwise_cons.mp h2).1 x hx2
        have hlt2 : x.index < y.index := (List.pairwise_cons.mp h1).1 y hy2
        omega

lemma registerAll_eq_of_perm {q : ℕ} (l1 l2 : List (PubSigner q))
    (hperm : List.Perm l1 l2)
    (h : l1.Pairwise (fun a b => a.index ≠ b.index)) :
    registerAll l1 = registerAll l2 := by
  have h2 : l2.Pairwise (fun a b => a.index ≠ b.index) :=
    (List.Perm.pairwise_iff (fun h' => Ne.symm h') hperm).mp h
  refine sorted_perm_eq _ _ ?_ (registerAll_sorted l1) (registerAll_sorted l2)
  exact ((registerAll_perm l1 h).trans hperm).trans (registerAll_perm l2 h2).symm

lemma registerAll_length {q : ℕ} (l : List (PubSigner q))
    (h : l.Pairwise (fun a b => a.index ≠ b.index)) :
    (registerAll l).length = l.length :=
  (registerAll_perm l h).length_eq

/-! ## Polynomial evaluation and Lagrange interpolation at zero -/

lemma polyEval_cons {q : ℕ} (c : ZMod q) (cs : List (ZMod q)) (x : ZMod q) :
    polyEval (c :: cs) x = c + x * polyEval cs x := rfl

lemma polyEval_at_zero {q : ℕ} (cs : List (ZMod q)) :
    polyEval cs 0 = cs.headD 0 := by
  cases cs with
  | nil => rfl
  | cons c cs => simp [polyEval_cons]

lemma polyEval_eq_eval {q : ℕ} (cs : List (ZMod q)) (x : ZMod q) :
    polyEval cs x = Polynomial.eval x
      (∑ k in Finset.range cs.length, Polynomial.C (cs.getD k 0) * Polynomial.X ^ k) := by
  induction cs generalizing x with
  | nil => simp [polyEval]
  | cons c cs ih =>
    rw [polyEval_cons, List.length_cons, Finset.sum_range_succ']
    simp only [List.getD_cons_succ, List.getD_cons_zero, pow_zero, mul_one,
      Polynomial.eval_add, Polynomial.eval_finset_sum, Polynomial.eval_mul,
      Polynomial.eval_pow, Polynomial.eval_C, Polynomial.eval_X]
    rw [ih x]
    simp only [Polynomial.eval_finset_sum, Polynomial.eval_mul, Polynomial.eval_pow,
      Polynomial.eval_C, Polynomial.eval_X]
    rw [Finset.mul_sum]
    have : ∀ k, c + x * (Polynomial.C (cs.getD k 0) * Polynomial.X ^ k).eval x
        = c + x * (cs.getD k 0 * x ^ k) := by
      intro k; simp
    rw [add_comm]
    congr 1
    refine Finset.sum_congr rfl (fun k _ => ?_)
    ring

lemma degree_sum_C_mul_X_lt {q : ℕ} [Fact (Nat.Prime q)] (cs : List (ZMod q)) :
    (∑ k in Finset.range cs.length,
      Polynomial.C (cs.getD k 0) * Polynomial.X ^ k).degree < (cs.length : WithBot ℕ) := by
  rcases Nat.eq_zero_or_pos cs.length with h0 | hpos
  · rw [h0]
    simp only [Finset.range_zero, Finset.sum_empty, Polynomial.degree_zero]
    exact WithBot.bot_lt_coe 0
  refine lt_of_le_of_lt (Polynomial.degree_sum_le _ _) ?_
  refine Finset.sup_lt_iff (by exact WithBot.bot_lt_coe _) |>.mpr ?_
  intro k hk
  refine lt_of_le_of_lt (Polynomial.degree_C_mul_X_pow_le _ _) ?_
  exact_mod_cast Finset.mem_range.mp hk

lemma lagrangeAtZero_eq_basis_eval {q : ℕ} [Fact (Nat.Prime q)]
    (S : Finset (ZMod q)) (i : ZMod q) :
    lagrangeAtZero S i = Polynomial.eval 0 (Lagrange.basis S id i) := by
  unfold lagrangeAtZero Lagrange.basis
  rw [Polynomial.eval_prod]
  refine Finset.prod_congr rfl (fun j _ => ?_)
  simp only [Lagrange.basisDivisor, Polynomial.eval_mul, Polynomial.eval_C,
    Polynomial.eval_sub, Polynomial.eval_X, id_eq]
  rw [zero_sub, mul_comm]
  rw [show (j : ZMod q) - i = -(i - j) by ring, inv_neg]
  ring

/-- The heart of claim C1: the Lagrange weights at zero recombine the
evaluations of any polynomial of degree below the node count into its
constant term. -/
lemma sum_lagrange_polyEval {q : ℕ} [Fact (Nat.Prime q)] (S : Finset (ZMod q))
    (cs : List (ZMod q)) (hlen : cs.length ≤ S.card) :
    ∑ x in S, lagrangeAtZero S x * polyEval cs x = polyEval cs 0 := by
  set f : Polynomial (ZMod q) :=
    ∑ k in Finset.range cs.length, Polynomial.C (cs.getD k 0) * Polynomial.X ^ k with hf
  have hinj : Set.InjOn id (S : Set (ZMod q)) := fun a _ b _ h => h
  have hdeg : f.degree < (S.card : WithBot ℕ) :=
    lt_of_lt_of_le (degree_sum_C_mul_X_lt cs) (Nat.cast_le.mpr hlen)
  have hinterp := @Lagrange.eq_interpolate (ZMod q) _ (ZMod q) _ S id f hinj hdeg
  have h0 : polyEval cs 0 = f.eval 0 := polyEval_eq_eval cs 0
  rw [h0, hinterp, Lagrange.interpolate_apply, Polynomial.eval_finset_sum]
  refine Finset.sum_congr rfl (fun x hx => ?_)
  rw [Polynomial.eval_mul, Polynomial.eval_C, ← lagrangeAtZero_eq_basis_eval,
    polyEval_eq_eval cs x]
  simp only [id_eq]
  ring

/-! ## The honest keygen chain -/

lemma coeffList_length {q : ℕ} (t : ℕ) (r : ℕ → ZMod q) :
    (coeffList t r).length = t := by simp [coeffList]

lemma coeffList_head {q : ℕ} (t : ℕ) (r : ℕ → ZMod q) (ht : 1 ≤ t) :
    (coeffList t r).head? = some (r 0) := by
  cases t with
  | zero => omega
  | succ s => simp [coeffList, List.range_succ_eq_map]

lemma coeffList_headD {q : ℕ} (t : ℕ) (r : ℕ → ZMod q) (ht : 1 ≤ t) :
    (coeffList t r).headD 0 = r 0 := by
  have h := coeffList_head t r ht
  cases hc : coeffList t r with
  | nil => rw [hc] at h; simp at h
  | cons a l => rw [hc] at h; simp at h; simp [h]

lemma mem_idxList (n i : ℕ) : i ∈ idxList n ↔ 1 ≤ i ∧ i ≤ n := by
  simp only [idxList, List.mem_map, List.mem_range]
  constructor
  · rintro ⟨k, hk, rfl⟩; omega
  · intro ⟨h1, h2⟩; exact ⟨i - 1, by omega, by omega⟩

lemma idxList_nodup (n : ℕ) : (idxList n).Nodup :=
  (List.nodup_range n).map (fun a b h => by omega)

lemma idxList_length (n : ℕ) : (idxList n).length = n := by simp [idxList]

lemma honestPart_index {q : ℕ} (H : HashModel q) (t : ℕ) (cr : ℕ → ℕ → ZMod q)
    (j : ℕ) : (honestPart H t cr j).index = j := rfl

lemma participantCheck_honest {q : ℕ} (H : HashModel q) (t : ℕ)
    (cr : ℕ → ℕ → ZMod q) (j : ℕ) (ht : 1 ≤ t)
    (hpok : ∀ i x, H.pokVerify i x (H.pokProve i x) = true) :
    participantCheck H (honestPart H t cr j).wrap = some (honestPart H t cr j) := by
  simp only [participantCheck, Participant.wrap, honestPart, Participant.create,
    Option.bind_eq_bind, Option.some_bind]
  rw [coeffList_head t (cr j) ht]
  simp only [Option.some_bind]
  rw [coeffList_headD t (cr j) ht, hpok]
  rfl

lemma participantOk_honest {q : ℕ} (H : HashModel q) (t : ℕ)
    (cr : ℕ → ℕ → ZMod q) (j : ℕ) (ht : 1 ≤ t)
    (hpok : ∀ i x, H.pokVerify i x (H.pokProve i x) = true) :
    participantOk H (honestPart H t cr j) = true := by
  simp only [participantOk, honestPart, Participant.create]
  rw [coeffList_head t (cr j) ht, coeffList_headD t (cr j) ht, hpok]
  rfl

lemma kgP_eq {q : ℕ} (H : HashModel q) (n t : ℕ) (cr : ℕ → ℕ → ZMod q) (j : ℕ) :
    kgP H n t cr j
      = (⟨2, [(1, coeffList t (cr j))]⟩, ⟨(honestPart H t cr j).wrap, 1⟩) := rfl

lemma peersW_eq {q : ℕ} (H : HashModel q) (n t : ℕ) (cr : ℕ → ℕ → ZMod q) (j : ℕ) :
    peersW H n t cr j
      = ((idxList n).filter (fun k => k != j)).map (fun k => (honestPart H t cr k).wrap) := by
  simp only [peersW, idxList, List.map_map, filter_map_comm]
  rfl

lemma collectVerified_map {q : ℕ} (H : HashModel q) (l : List ℕ)
    (w : ℕ → ParticipantWrapper q) (g : ℕ → Participant q)
    (h : ∀ x ∈ l, participantCheck H (w x) = some (g x)) :
    collectVerified H (l.map w) = some (l.map g) := by
  induction l with
  | nil => rfl
  | cons a rest ih =>
    simp only [List.map_cons, collectVerified, h a (by simp)]
    rw [ih (fun x hx => h x (by simp [hx]))]
    rfl

lemma collectVerified_none {q : ℕ} (H : HashModel q)
    (l : List (ParticipantWrapper q)) (a : ParticipantWrapper q)
    (hmem : a ∈ l) (ha : participantCheck H a = none) :
    collectVerified H l = none := by
  induction l with
  | nil => simp at hmem
  | cons x xs ih =>
    rcases List.mem_cons.mp hmem with h | h
    · subst h
      simp [collectVerified, ha]
    · cases hx : participantCheck H x with
      | none => simp [collectVerified, hx]
      | some p => simp [collectVerified, hx, ih h]

lemma participantCheck_ok {q : ℕ} (H : HashModel q) (w : ParticipantWrapper q)
    (p : Participant q) (h : participantCheck H w = some p) :
    participantOk H p = true := by
  simp only [participantCheck, Option.bind_eq_bind] at h
  cases hw : w.payload with
  | none => rw [hw] at h; simp at h
  | some p1 =>
    rw [hw] at h
    simp only [Option.some_bind] at h
    cases hh : p1.commitments.head? with
    | none => rw [hh] at h; simp at h
    | some pk =>
      rw [hh] at h
      simp only [Option.some_bind] at h
      by_cases hv : H.pokVerify p1.index pk p1.proof_of_secret_key
      · rw [if_pos hv] at h
        cases h
        have hd : p.commitments.headD 0 = pk := by
          cases hc : p.commitments with
          | nil => rw [hc] at hh; simp at hh
          | cons c l => rw [hc] at hh; simp at hh; simp [hh]
        simp [participantOk, hh, hd, hv]
      · rw [if_neg hv] at h
        simp at h

lemma collectVerified_ok {q : ℕ} (H : HashModel q)
    (ws : List (ParticipantWrapper q)) (ps : List (Participant q))
    (h : collectVerified H ws = some ps) :
    ∀ p ∈ ps, participantOk H p = true := by
  induction ws generalizing ps with
  | nil =>
    simp only [collectVerified, Option.some_inj] at h
    subst h
    intro p hp
    simp at hp
  | cons w rest ih =>
    simp only [collectVerified] at h
    cases hw : participantCheck H w with
    | none => rw [hw] at h; simp at h
    | some p0 =>
      rw [hw] at h
      rcases Option.map_eq_some'.mp h with ⟨ps', hps', rfl⟩
      intro p hp
      rcases List.mem_cons.mp hp with h' | h'
      · exact h' ▸ participantCheck_ok H w p0 hw
      · exact ih ps' hps' p h'

lemma dkgNew_ok {q : ℕ} (H : HashModel q) (mi : ℕ) (cs : Coefficients q)
    (ps : List (Participant q)) (h : ∀ p ∈ ps, participantOk H p = true) :
    dkgNew H mi cs ps = .ok ⟨mi, cs, ps,
      (mi :: ps.map (·.index)).map (fun j => ⟨mi, j, polyEval cs (j : ZMod q)⟩)⟩ := by
  have hfil : ps.filter (fun p => !(participantOk H p)) = [] := by
    refine List.filter_eq_nil_iff.mpr (fun p hp => ?_)
    simp [h p hp]
  simp [dkgNew, hfil]

lemma peerParts_map_index {q : ℕ} (H : HashModel q) (n t : ℕ)
    (cr : ℕ → ℕ → ZMod q) (j : ℕ) :
    (peerParts H n t cr j).map (·.index) = (idxList n).filter (fun k => k != j) := by
  simp only [peerParts, List.map_map]
  have : (Participant.index ∘ honestPart H t cr) = fun k => k := rfl
  rw [this, List.map_id']

lemma kgR1_eq {q : ℕ} (H : HashModel q) (n t : ℕ) (cr : ℕ → ℕ → ZMod q) (j : ℕ)
    (ht : 1 ≤ t) (hpok : ∀ i x, H.pokVerify i x (H.pokProve i x) = true) :
    kgR1 H n t cr j = (⟨2, []⟩, ⟨2, [(1, dkgSt H n t cr j)]⟩,
      RRes.ok ⟨(honestShares n t cr j).map some, 1⟩) := by
  have hcoll : collectVerified H (peersW H n t cr j) = some (peerParts H n t cr j) := by
    rw [peersW_eq]
    exact collectVerified_map H _ _ _
      (fun x _ => participantCheck_honest H t cr x ht hpok)
  have hok : ∀ p ∈ peerParts H n t cr j, participantOk H p = true := by
    intro p hp
    rcases List.mem_map.mp hp with ⟨k, _, rfl⟩
    exact participantOk_honest H t cr k ht hpok
  have hdkg : dkgNew H j (coeffList t (cr j)) (peerParts H n t cr j)
      = .ok (dkgSt H n t cr j) := by
    rw [dkgNew_ok H j _ _ hok]
    unfold dkgSt
    congr 1
    rw [peerParts_map_index]
    rfl
  unfold kgR1
  rw [kgP_eq]
  simp only [generate_their_shares_and_verify_participants, hcoll]
  have htake : (HStore.take (⟨2, [(1, coeffList t (cr j))]⟩ : HStore (Coefficients q)) 1)
      = (some (coeffList t (cr j)), ⟨2, []⟩) := by
    simp [HStore.take, HStore.get?, HStore.remove]
  have hidx : (honestPart H t cr j).wrap.index = j := rfl
  simp only [htake, hidx, hdkg]
  rfl

lemma findSome?_map_some {α β : Type} (l : List α) (f : α → Option β) :
    (l.map some).findSome? (fun w => w.bind f) = l.findSome? f := by
  induction l with
  | nil => rfl
  | cons a rest ih =>
    simp only [List.map_cons, List.findSome?_cons, Option.some_bind]
    cases f a with
    | none => exact ih
    | some b => rfl

lemma findSome?_guard {α : Type} (l : List α) (p : α → Bool) :
    l.findSome? (fun s => if p s then some s else none) = l.find? p := by
  induction l with
  | nil => rfl
  | cons a rest ih =>
    simp only [List.findSome?_cons, List.find?_cons]
    cases hp : p a with
    | false => simpa using ih
    | true => simp

lemma mem_cons_filter_of_le (n i k : ℕ) (h1 : 1 ≤ i) (h2 : i ≤ n) :
    i ∈ k :: (idxList n).filter (fun j => j != k) := by
  by_cases hik : i = k
  · simp [hik]
  · refine List.mem_cons_of_mem k (List.mem_filter.mpr ⟨?_, ?_⟩)
    · exact (mem_idxList n i).mpr ⟨h1, h2⟩
    · simpa using hik

lemma sharesFor_eq {q : ℕ} (H : HashModel q) (n t : ℕ) (cr : ℕ → ℕ → ZMod q)
    (i : ℕ) (ht : 1 ≤ t)
    (hpok : ∀ j x, H.pokVerify j x (H.pokProve j x) = true)
    (h1 : 1 ≤ i) (h2 : i ≤ n) :
    sharesFor H n t cr i = (idxList n).map
      (fun k => some ⟨k, i, polyEval (coeffList t (cr k)) (i : ZMod q)⟩) := by
  unfold sharesFor
  rw [idxList, List.map_map]
  refine List.map_congr_left (fun k _ => ?_)
  rw [kgR1_eq H n t cr (k + 1) ht hpok]
  simp only [Function.comp_apply]
  rw [findSome?_map_some (honestShares n t cr (k + 1))
      (fun s : SecretShare q => if s.receiver == i then some s else none),
    findSome?_guard]
  unfold honestShares
  exact find?_map_eq _ i _ SecretShare.receiver (fun j => rfl)
    (mem_cons_filter_of_le n i (k + 1) h1 h2)

lemma sum_over_idxList {q : ℕ} (n i : ℕ) (f : ℕ → ZMod q)
    (h1 : 1 ≤ i) (h2 : i ≤ n) :
    f i + (((idxList n).filter (fun k => k != i)).map f).sum
      = ((idxList n).map f).sum := by
  have hperm := perm_cons_filter_ne (idxList n) i (idxList_nodup n)
    ((mem_idxList n i).mpr ⟨h1, h2⟩)
  have := (hperm.map f).sum_eq
  simpa using this

lemma length_filter_idxList (n i : ℕ) (h1 : 1 ≤ i) (h2 : i ≤ n) :
    ((idxList n).filter (fun k => k != i)).length + 1 = n := by
  have hperm := perm_cons_filter_ne (idxList n) i (idxList_nodup n)
    ((mem_idxList n i).mpr ⟨h1, h2⟩)
  have := hperm.length_eq
  simp only [List.length_cons, idxList_length] at this
  omega

lemma kgDerive_eq {q : ℕ} (H : HashModel q) (n t : ℕ) (cr : ℕ → ℕ → ZMod q)
    (i : ℕ) (ht : 1 ≤ t)
    (hpok : ∀ j x, H.pokVerify j x (H.pokProve j x) = true)
    (h1 : 1 ≤ i) (h2 : i ≤ n) :
    kgDerive H n t cr i = (⟨2, []⟩,
      RRes.ok ⟨enc32 (gkTotal n t cr), some ⟨i, skVal n t cr i⟩,
        some ⟨i, skVal n t cr i⟩⟩) := by
  unfold kgDerive
  rw [kgR1_eq H n t cr i ht hpok, sharesFor_eq H n t cr i ht hpok h1 h2, kgP_eq]
  simp only []
  unfold derive_pubk_and_group_key
  have hseq : seqOpt ((idxList n).map
      (fun k => some (⟨k, i, polyEval (coeffList t (cr k)) (i : ZMod q)⟩ : SecretShare q)))
      = some ((idxList n).map
        (fun k => (⟨k, i, polyEval (coeffList t (cr k)) (i : ZMod q)⟩ : SecretShare q))) := by
    refine seqOpt_map_of_forall _ _ _ (fun x _ => rfl)
  rw [hseq]
  have htake : (HStore.take (⟨2, [(1, dkgSt H n t cr i)]⟩ : HStore (DkgR1 q)) 1)
      = (some (dkgSt H n t cr i), ⟨2, []⟩) := by
    simp [HStore.take, HStore.get?, HStore.remove]
  simp only [htake]
  have hlen : ((idxList n).map
      (fun k => (⟨k, i, polyEval (coeffList t (cr k)) (i : ZMod q)⟩ : SecretShare q))).length
      == (dkgSt H n t cr i).peers.length + 1 := by
    simp only [List.length_map, idxList_length, dkgSt, peerParts]
    rw [length_filter_idxList n i h1 h2]
    exact beq_self_eq_true n
  have hall : ((idxList n).map
      (fun k => (⟨k, i, polyEval (coeffList t (cr k)) (i : ZMod q)⟩ : SecretShare q))).all
      (shareOk (dkgSt H n t cr i)) = true := by
    rw [List.all_eq_true]
    intro s hs
    rcases List.mem_map.mp hs with ⟨k, hk, rfl⟩
    simp only [shareOk, dkgSt]
    by_cases hki : k = i
    · subst hki
      simp
    · have hki' : (k == i) = false := by simpa using hki
      simp only [hki', beq_self_eq_true, Bool.true_and, if_false]
      have hfind : (peerParts H n t cr i).find? (fun p => p.index == k)
          = some (honestPart H t cr k) := by
        unfold peerParts
        refine find?_map_eq _ k _ Participant.index (fun j => rfl) ?_
        refine List.mem_filter.mpr ⟨(mem_idxList n k).mpr ?_, by simpa using hki⟩
        rcases (mem_idxList n k).mp hk with ⟨hk1, hk2⟩
        exact ⟨hk1, hk2⟩
      rw [hfind]
      simp [honestPart, Participant.create]
  simp only [hlen, hall, Bool.and_self, if_true]
  have hwrap : ((honestPart H t cr i).wrap).payload = some (honestPart H t cr i) := rfl
  have hhead : (honestPart H t cr i).commitments.head? = some (cr i 0) :=
    coeffList_head t (cr i) ht
  simp only [hwrap, hhead]
  have hgk : cr i 0
      + (((dkgSt H n t cr i).peers).map (fun pr => pr.commitments.headD 0)).sum
      = gkTotal n t cr := by
    simp only [dkgSt, peerParts, List.map_map, gkTotal]
    have hf : ((fun pr => Participant.commitments pr |>.headD 0) ∘ honestPart H t cr)
        = fun k => (coeffList t (cr k)).headD 0 := rfl
    rw [hf, ← coeffList_headD t (cr i) ht]
    exact sum_over_idxList n i (fun k => (coeffList t (cr k)).headD 0) h1 h2
  have hsk : (((idxList n).map
      (fun k => (⟨k, i, polyEval (coeffList t (cr k)) (i : ZMod q)⟩ : SecretShare q))).map
        (fun s => s.value)).sum = skVal n t cr i := by
    rw [List.map_map]; rfl
  simp only [hgk, hsk]
  rfl

/-! ## The honest signing chain -/

lemma signerGcl_eq {q : ℕ} (nr : ℕ → ℕ → ZMod q × ZMod q) (i : ℕ) :
    signerGcl nr i = (⟨2, [(1, ⟨i, [⟨(nr i 0).1, (nr i 0).2⟩]⟩)]⟩,
      ⟨⟨i, [((nr i 0).1, (nr i 0).2)]⟩, 1⟩) := rfl

lemma gkBuffOf_eq {q : ℕ} (H : HashModel q) (n t : ℕ) (cr : ℕ → ℕ → ZMod q)
    (ht : 1 ≤ t) (htn : t ≤ n)
    (hpok : ∀ j x, H.pokVerify j x (H.pokProve j x) = true) :
    gkBuffOf H n t cr = enc32 (gkTotal n t cr) := by
  unfold gkBuffOf
  rw [kgDerive_eq H n t cr 1 ht hpok le_rfl (le_trans ht htn)]

lemma skOf_eq {q : ℕ} (H : HashModel q) (n t : ℕ) (cr : ℕ → ℕ → ZMod q) (i : ℕ)
    (ht : 1 ≤ t) (hpok : ∀ j x, H.pokVerify j x (H.pokProve j x) = true)
    (h1 : 1 ≤ i) (h2 : i ≤ n) :
    skOf H n t cr i = some ⟨i, skVal n t cr i⟩ := by
  unfold skOf
  rw [kgDerive_eq H n t cr i ht hpok h1 h2]

lemma pubkOf_eq {q : ℕ} (H : HashModel q) (n t : ℕ) (cr : ℕ → ℕ → ZMod q) (i : ℕ)
    (ht : 1 ≤ t) (hpok : ∀ j x, H.pokVerify j x (H.pokProve j x) = true)
    (h1 : 1 ≤ i) (h2 : i ≤ n) :
    pubkOf H n t cr i = some ⟨i, skVal n t cr i⟩ := by
  unfold pubkOf
  rw [kgDerive_eq H n t cr i ht hpok h1 h2]

lemma includeLoop_map {q : ℕ} {α : Type} (l : List α) (c : α → ZMod q × ZMod q)
    (p : α → IndividualPublicKey q) (acc : List (PubSigner q)) :
    includeLoop (l.map (fun a => (some (c a), some (p a)))) acc
      = .ok (l.foldl (fun acc2 a => includeSigner acc2 ⟨(p a).index, (c a).1, (c a).2⟩) acc) := by
  induction l generalizing acc with
  | nil => rfl
  | cons a rest ih =>
    simp only [List.map_cons, includeLoop, List.foldl_cons]
    exact ih _

lemma aggRun_eq {q : ℕ} (H : HashModel q) (n t : ℕ) (cr : ℕ → ℕ → ZMod q)
    (nr : ℕ → ℕ → ZMod q × ZMod q) (S : List ℕ) (msg : Buff q)
    (ht : 1 ≤ t) (htn : t ≤ n)
    (hpok : ∀ j x, H.pokVerify j x (H.pokProve j x) = true)
    (hS : ∀ i ∈ S, 1 ≤ i ∧ i ≤ n) :
    aggRun H n t cr nr S msg
      = (⟨2, [(1, ⟨n, t, gkTotal n t cr, msg, regS nr S⟩)]⟩,
        RRes.ok ⟨(regS nr S).map some, 1⟩) := by
  unfold aggRun get_aggregator_signers
  rw [gkBuffOf_eq H n t cr ht htn hpok, dec32_enc32]
  have hc : S.map (fun i => (signerGcl nr i).2.public_comm_share.shares.get? 0)
      = S.map (fun i => some ((nr i 0).1, (nr i 0).2)) :=
    List.map_congr_left (fun i _ => rfl)
  have hp : S.map (pubkOf H n t cr)
      = S.map (fun i => some (⟨i, skVal n t cr i⟩ : IndividualPublicKey q)) :=
    List.map_congr_left (fun i hi => pubkOf_eq H n t cr i ht hpok (hS i hi).1 (hS i hi).2)
  rw [hc, hp, zip_map_pair,
    includeLoop_map S (fun i => ((nr i 0).1, (nr i 0).2))
      (fun i => (⟨i, skVal n t cr i⟩ : IndividualPublicKey q)) []]
  have hfold : S.foldl (fun acc2 a =>
        includeSigner acc2 ⟨(⟨a, skVal n t cr a⟩ : IndividualPublicKey q).index,
          (nr a 0).1, (nr a 0).2⟩) []
      = regS nr S := by
    rw [regS, registerAll, List.foldl_map]
    rfl
  rw [hfold]
  rfl

lemma signersOf_eq {q : ℕ} (H : HashModel q) (n t : ℕ) (cr : ℕ → ℕ → ZMod q)
    (nr : ℕ → ℕ → ZMod q × ZMod q) (S : List ℕ) (msg : Buff q)
    (ht : 1 ≤ t) (htn : t ≤ n)
    (hpok : ∀ j x, H.pokVerify j x (H.pokProve j x) = true)
    (hS : ∀ i ∈ S, 1 ≤ i ∧ i ≤ n) :
    signersOf H n t cr nr S msg = (regS nr S).map some := by
  unfold signersOf
  rw [aggRun_eq H n t cr nr S msg ht htn hpok hS]

lemma partialOf_eq {q : ℕ} (H : HashModel q) (n t : ℕ) (cr : ℕ → ℕ → ZMod q)
    (nr : ℕ → ℕ → ZMod q × ZMod q) (S : List ℕ) (msg : Buff q) (i : ℕ)
    (ht : 1 ≤ t) (htn : t ≤ n)
    (hpok : ∀ j x, H.pokVerify j x (H.pokProve j x) = true)
    (hS : ∀ j ∈ S, 1 ≤ j ∧ j ≤ n) (hi : i ∈ S) :
    partialOf H n t cr nr S msg i
      = RRes.ok ⟨i, honestZ H n t cr nr S msg i⟩ := by
  unfold partialOf signPartial
  rw [signersOf_eq H n t cr nr S msg ht htn hpok hS,
    skOf_eq H n t cr i ht hpok (hS i hi).1 (hS i hi).2,
    gkBuffOf_eq H n t cr ht htn hpok, dec32_enc32, signerGcl_eq]
  have htake : (HStore.take
      (⟨2, [(1, (⟨i, [⟨(nr i 0).1, (nr i 0).2⟩]⟩ : SecretCommitmentShareList q))]⟩
        : HStore (SecretCommitmentShareList q)) 1)
      = (some ⟨i, [⟨(nr i 0).1, (nr i 0).2⟩]⟩, ⟨2, []⟩) := by
    simp [HStore.take, HStore.get?, HStore.remove]
  simp only [htake, seqOpt_map_some]
  simp only [skSign, honestZ]
  rfl

lemma pairwise_sigRec {q : ℕ} (nr : ℕ → ℕ → ZMod q × ZMod q) (S : List ℕ)
    (hnd : S.Nodup) :
    (S.map (sigRec nr)).Pairwise (fun a b => a.index ≠ b.index) := by
  rw [List.pairwise_map]
  exact hnd.imp (fun hab => by simpa [sigRec] using hab)

lemma aggSigRes_eq {q : ℕ} (H : HashModel q) (n t : ℕ) (cr : ℕ → ℕ → ZMod q)
    (nr : ℕ → ℕ → ZMod q × ZMod q) (S : List ℕ) (msg : Buff q)
    (ht : 1 ≤ t) (htn : t ≤ n)
    (hpok : ∀ j x, H.pokVerify j x (H.pokProve j x) = true)
    (hS : ∀ i ∈ S, 1 ≤ i ∧ i ≤ n) (hnd : S.Nodup) (hlenS : S.length = t) :
    aggSigRes H n t cr nr S msg = (⟨2, []⟩, RRes.ok (enc64
      (commitSum H (regS nr S) (H.mtb msg))
      (((regS nr S).map (fun s => honestZ H n t cr nr S msg s.index)).sum))) := by
  unfold aggSigRes
  rw [aggRun_eq H n t cr nr S msg ht htn hpok hS]
  simp only []
  unfold aggregate_signatures
  have htake : (HStore.take
      (⟨2, [(1, (⟨n, t, gkTotal n t cr, msg, regS nr S⟩ : AggState q))]⟩
        : HStore (AggState q)) 1)
      = (some ⟨n, t, gkTotal n t cr, msg, regS nr S⟩, ⟨2, []⟩) := by
    simp [HStore.take, HStore.get?, HStore.remove]
  simp only [htake]
  have hpw : partialsW H n t cr nr S msg
      = (S.map (fun i => (⟨i, honestZ H n t cr nr S msg i⟩ : PartialSig q))).map some := by
    unfold partialsW
    rw [List.map_map]
    refine List.map_congr_left (fun i hi => ?_)
    rw [partialOf_eq H n t cr nr S msg i ht htn hpok hS hi]
    rfl
  rw [hpw, seqOpt_map_some]
  have hfin : finalizeAgg (⟨n, t, gkTotal n t cr, msg, regS nr S⟩ : AggState q)
      = .ok ⟨n, t, gkTotal n t cr, msg, regS nr S⟩ := by
    unfold finalizeAgg
    have hlen : (regS nr S).length = t := by
      rw [regS, registerAll_length _ (pairwise_sigRec nr S hnd), List.length_map, hlenS]
    simp [hlen]
  rw [hfin]
  have hseq : seqOpt ((regS nr S).map (fun s =>
      (S.map (fun i => (⟨i, honestZ H n t cr nr S msg i⟩ : PartialSig q))).find?
        (fun p => p.index == s.index)))
      = some ((regS nr S).map (fun s =>
        (⟨s.index, honestZ H n t cr nr S msg s.index⟩ : PartialSig q))) := by
    refine seqOpt_map_of_forall _ _ _ (fun s hs => ?_)
    have hperm := registerAll_perm _ (pairwise_sigRec nr S hnd)
    have hsm : s ∈ S.map (sigRec nr) := hperm.mem_iff.mp hs
    rcases List.mem_map.mp hsm with ⟨j, hj, rfl⟩
    have := find?_map_eq S j
      (fun i => (⟨i, honestZ H n t cr nr S msg i⟩ : PartialSig q))
      PartialSig.index (fun a => rfl) hj
    simpa [sigRec] using this
  have hagg : aggregateFin H (⟨n, t, gkTotal n t cr, msg, regS nr S⟩ : AggState q)
      (S.map (fun i => (⟨i, honestZ H n t cr nr S msg i⟩ : PartialSig q)))
      = .ok (commitSum H (regS nr S) (H.mtb msg),
          ((regS nr S).map (fun s => honestZ H n t cr nr S msg s.index)).sum) := by
    unfold aggregateFin
    rw [hseq]
    simp only [List.map_map]
    rfl
  simp only [hfin, hagg]

/-! ## The correctness algebra -/

lemma finset_list_sum_swap {q : ℕ} (Sf : Finset (ZMod q)) (K : List ℕ)
    (b : ℕ → ZMod q → ZMod q) :
    ∑ x in Sf, (K.map (fun k => b k x)).sum = (K.map (fun k => ∑ x in Sf, b k x)).sum := by
  induction K with
  | nil => simp
  | cons k rest ih =>
    simp only [List.map_cons, List.sum_cons, Finset.sum_add_distrib, ih]

lemma regS_map_index_perm {q : ℕ} (nr : ℕ → ℕ → ZMod q × ZMod q) (S : List ℕ)
    (hnd : S.Nodup) :
    List.Perm ((regS nr S).map (·.index)) S := by
  have hperm : List.Perm (regS nr S) (S.map (sigRec nr)) :=
    registerAll_perm (S.map (sigRec nr)) (pairwise_sigRec nr S hnd)
  have h1 := hperm.map (·.index)
  have h2 : (S.map (sigRec nr)).map (·.index) = S := by
    rw [List.map_map]
    have he : ((·.index) ∘ sigRec nr : ℕ → ℕ) = fun a => a := rfl
    rw [he, List.map_id']
  rw [h2] at h1
  exact h1

lemma card_castFinset {q : ℕ} (S : List ℕ)
    (hndc : (S.map (fun i : ℕ => (i : ZMod q))).Nodup) :
    ((S.map (fun i : ℕ => (i : ZMod q))).toFinset).card = S.length := by
  rw [List.card_toFinset, hndc.dedup, List.length_map]

lemma honest_sum_eq {q : ℕ} [Fact (Nat.Prime q)] (H : HashModel q) (n t : ℕ)
    (cr : ℕ → ℕ → ZMod q) (nr : ℕ → ℕ → ZMod q × ZMod q) (S : List ℕ)
    (msg : Buff q) (hndc : (S.map (fun i : ℕ => (i : ZMod q))).Nodup)
    (hlenS : S.length = t) :
    ((regS nr S).map (fun s => honestZ H n t cr nr S msg s.index)).sum
      = commitSum H (regS nr S) (H.mtb msg)
        + H.hc (commitSum H (regS nr S) (H.mtb msg)) (gkTotal n t cr) (H.mtb msg)
          * gkTotal n t cr := by
  have hnd : S.Nodup := hndc.of_map
  have hperm : List.Perm (regS nr S) (S.map (sigRec nr)) :=
    registerAll_perm (S.map (sigRec nr)) (pairwise_sigRec nr S hnd)
  -- abbreviations
  set mh := H.mtb msg with hmh
  set R0 := commitSum H (regS nr S) mh with hR0
  set c0 := H.hc R0 (gkTotal n t cr) mh with hc0
  set Sf : Finset (ZMod q) := (S.map (fun i : ℕ => (i : ZMod q))).toFinset with hSf
  -- step 1: sum over the canonical registry equals sum over S
  have hstep1 : ((regS nr S).map (fun s => honestZ H n t cr nr S msg s.index)).sum
      = (S.map (fun j => honestZ H n t cr nr S msg j)).sum := by
    have h1 := (hperm.map (fun s => honestZ H n t cr nr S msg s.index)).sum_eq
    rw [h1, List.map_map]
    rfl
  -- step 2: unfold each response
  have hsplit : (S.map (fun j => honestZ H n t cr nr S msg j)).sum
      = (S.map (fun j => (nr j 0).1 + H.hb (regS nr S) mh j * (nr j 0).2)).sum
        + (S.map (fun j =>
            lagrangeOf ((regS nr S).map (·.index)) j * skVal n t cr j)).sum * c0 := by
    rw [← List.sum_map_mul_right, ← sum_map_add_distrib]
    refine congrArg List.sum (List.map_congr_left (fun j _ => ?_))
    simp only [honestZ, hmh, hR0, hc0]
  -- step 3: the first summand is the commitment sum
  have hcs : commitSum H (regS nr S) mh
      = (S.map (fun j => (nr j 0).1 + H.hb (regS nr S) mh j * (nr j 0).2)).sum := by
    unfold commitSum
    have h1 := (hperm.map (fun s =>
      s.hidingC + H.hb (regS nr S) mh s.index * s.bindingC)).sum_eq
    rw [h1, List.map_map]
    rfl
  -- step 4: the Lagrange-weighted key shares sum to the group key
  have hlag : (S.map (fun j =>
      lagrangeOf ((regS nr S).map (·.index)) j * skVal n t cr j)).sum
      = gkTotal n t cr := by
    have hlof : ∀ j : ℕ, lagrangeOf ((regS nr S).map (·.index)) j
        = lagrangeAtZero Sf (j : ZMod q) := by
      intro j
      unfold lagrangeOf
      rw [hSf]
      congr 1
      exact List.toFinset_eq_of_perm _ _
        ((regS_map_index_perm nr S hnd).map (fun i : ℕ => (i : ZMod q)))
    have hg : (S.map (fun j =>
        lagrangeOf ((regS nr S).map (·.index)) j * skVal n t cr j)).sum
        = ((S.map (fun i : ℕ => (i : ZMod q))).map (fun x =>
            lagrangeAtZero Sf x
              * ((idxList n).map (fun k => polyEval (coeffList t (cr k)) x)).sum)).sum := by
      rw [List.map_map]
      refine congrArg List.sum (List.map_congr_left (fun j _ => ?_))
      rw [hlof j]
      rfl
    rw [hg, ← List.sum_toFinset _ hndc, ← hSf]
    have hpush : ∑ x in Sf, lagrangeAtZero Sf x
        * ((idxList n).map (fun k => polyEval (coeffList t (cr k)) x)).sum
        = ∑ x in Sf, ((idxList n).map (fun k =>
            lagrangeAtZero Sf x * polyEval (coeffList t (cr k)) x)).sum := by
      refine Finset.sum_congr rfl (fun x _ => ?_)
      rw [List.sum_map_mul_left]
    rw [hpush, finset_list_sum_swap]
    have hcard : Sf.card = t := by
      rw [hSf, card_castFinset S hndc, hlenS]
    have hper : ∀ k : ℕ, ∑ x in Sf, lagrangeAtZero Sf x * polyEval (coeffList t (cr k)) x
        = polyEval (coeffList t (cr k)) 0 := by
      intro k
      refine sum_lagrange_polyEval Sf (coeffList t (cr k)) ?_
      rw [coeffList_length, hcard]
    unfold gkTotal
    refine congrArg List.sum (List.map_congr_left (fun k _ => ?_))
    rw [hper k, polyEval_at_zero]
  rw [hstep1, hsplit, ← hcs, hlag]
  ring

lemma fullRun_ok {q : ℕ} [Fact (Nat.Prime q)]
    (H : HashModel q) (n t : ℕ) (cr : ℕ → ℕ → ZMod q)
    (nr : ℕ → ℕ → ZMod q × ZMod q) (S : List ℕ) (msg : Buff q)
    (hpok : ∀ i x, H.pokVerify i x (H.pokProve i x) = true)
    (ht : 1 ≤ t) (htn : t ≤ n)
    (hS : ∀ i ∈ S, 1 ≤ i ∧ i ≤ n) (hlenS : S.length = t)
    (hndc : (S.map (fun i : ℕ => (i : ZMod q))).Nodup) :
    fullRun H n t cr nr S msg = RRes.ok () := by
  have hnd : S.Nodup := hndc.of_map
  unfold fullRun
  rw [aggSigRes_eq H n t cr nr S msg ht htn hpok hS hnd hlenS,
    gkBuffOf_eq H n t cr ht htn hpok]
  simp only []
  unfold validate_signature
  simp only [dec32_enc32]
  have hlen64 : ((enc64 (commitSum H (regS nr S) (H.mtb msg))
      (((regS nr S).map (fun s => honestZ H n t cr nr S msg s.index)).sum)).length
        == 64) = true := by
    rw [enc64_length]
    rfl
  simp only [hlen64, if_true]
  unfold ed25519Verify
  simp only [enc64_take, enc64_drop, dec32_enc32]
  rw [honest_sum_eq H n t cr nr S msg hndc hlenS]
  simp

/-! ## Handle store lemmas -/

lemma HStore.get?_alloc {α : Type} (st : HStore α) (a : α) :
    ((st.alloc a).2).get? (st.alloc a).1 = some a := by
  simp [HStore.alloc, HStore.get?]

lemma HStore.get?_remove {α : Type} (st : HStore α) (h : ℕ) :
    (st.remove h).get? h = none := by
  unfold HStore.remove HStore.get?
  induction st.entries with
  | nil => rfl
  | cons e rest ih =>
    by_cases he : e.1 = h
    · simp only [List.filter_cons, he]
      simp only [bne_self_eq_false, if_false, cond_false]
      exact ih
    · have hne : (e.1 != h) = true := by simpa using he
      have hne' : (e.1 == h) = false := by simpa using he
      simp only [List.filter_cons, hne, if_true]
      simp only [List.find?_cons, hne']
      exact ih

/-! ## Claim theorems -/

/-- C1.  For every valid parameter pair `(n, t)` with `1 ≤ t ≤ n`,
running the full key generation among `n` honest participants
(`participate`, `generate_their_shares_and_verify_participants`,
`derive_pubk_and_group_key` for each participant) and then signing with
any subset `S` of exactly `t` distinct signers
(`gen_commitment_share_lists`, `get_aggregator_signers`, `signPartial`,
`aggregate_signatures`) produces a signature on which
`validate_signature`, applied to the derived group key and the same
message, returns ok — `fullRun` is exactly this composition and
`RRes.ok ()` is the ok outcome of its final `validate_signature` call.
The hash primitives are abstract (`HashModel`), with the completeness of
the proof of knowledge as a hypothesis, and the signer indices must stay
distinct modulo the group order. -/
theorem C1_full_protocol_correctness {q : ℕ} [Fact (Nat.Prime q)]
    (H : HashModel q) (n t : ℕ) (cr : ℕ → ℕ → ZMod q)
    (nr : ℕ → ℕ → ZMod q × ZMod q) (S : List ℕ) (msg : Buff q)
    (hpok : ∀ i x, H.pokVerify i x (H.pokProve i x) = true)
    (ht : 1 ≤ t) (htn : t ≤ n)
    (hS : ∀ i ∈ S, 1 ≤ i ∧ i ≤ n) (hlenS : S.length = t)
    (hndc : (S.map (fun i : ℕ => (i : ZMod q))).Nodup) :
    fullRun H n t cr nr S msg = RRes.ok () :=
  fullRun_ok H n t cr nr S msg hpok ht htn hS hlenS hndc

/-- Witness for C1: the spec's own concrete scenario, `n = 3`, `t = 2`,
signers `{1, 2}`, over the five-element field. -/
theorem C1_full_protocol_correctness_witness :
    fullRun W5 3 2 crW nrW [1, 2] [1, 2, 3] = RRes.ok () := by
  have hndc : (([1, 2] : List ℕ).map (fun i : ℕ => (i : ZMod 5))).Nodup := by decide
  haveI : Fact (Nat.Prime 5) := ⟨by norm_num⟩
  exact C1_full_protocol_correctness W5 3 2 crW nrW [1, 2] [1, 2, 3]
    (fun i x => beq_self_eq_true _) (by decide) (by decide)
    (by decide) (by decide) hndc

/-- C8.  `participate` has no failure mode: its result type is a plain
record, and under `1 ≤ own_index ≤ n` and `1 ≤ t ≤ n` it returns the
public `Participant` record (index `own_index`, commitments of length
`t`, a proof of the constant-term coefficient) together with a handle
under which the heap holds the private `Coefficients` of length `t`.
Since it never fails, the set of inputs on which it fails is contained
in the out-of-range inputs vacuously. -/
theorem C8_participate_total {q : ℕ} (H : HashModel q)
    (st : HStore (Coefficients q)) (uuid n t : ℕ) (r : ℕ → ZMod q)
    (h1 : 1 ≤ uuid) (h2 : uuid ≤ n) (h3 : 1 ≤ t) (h4 : t ≤ n) :
    (participate H st uuid n t r).2.participant.payload
        = some ⟨uuid, coeffList t r, H.pokProve uuid ((coeffList t r).headD 0)⟩
      ∧ (coeffList t r).length = t
      ∧ (participate H st uuid n t r).1.get?
          ((participate H st uuid n t r).2.coefficients_handle)
        = some (coeffList t r) := by
  refine ⟨rfl, coeffList_length t r, ?_⟩
  exact HStore.get?_alloc st (coeffList t r)

/-- Witness for C8 at `own_index = 2`, `n = 3`, `t = 2`. -/
theorem C8_participate_total_witness :
    (participate W5 HStore.empty 2 3 2 (crW 2)).2.participant.payload
        = some ⟨2, coeffList 2 (crW 2), W5.pokProve 2 ((coeffList 2 (crW 2)).headD 0)⟩
      ∧ (coeffList 2 (crW 2)).length = 2
      ∧ (participate W5 HStore.empty 2 3 2 (crW 2)).1.get?
          ((participate W5 HStore.empty 2 3 2 (crW 2)).2.coefficients_handle)
        = some (coeffList 2 (crW 2)) :=
  C8_participate_total W5 HStore.empty 2 3 2 (crW 2)
    (by decide) (by decide) (by decide) (by decide)

/-- C5 counterexample.  The claim reads every requested `count` back in
the output; but the exported `gen_commitment_share_lists` takes no count
argument and hardcodes `count = 1`: at the instance `count = 2` the
number of produced pairs is 1, not 2. -/
theorem C5_count_counterexample :
    ¬ ((gen_commitment_share_lists (nrW 7) HStore.empty 7).2.public_comm_share.shares.length
        = 2) := by
  decide

/-- C5 as amended.  The library-level generator produces exactly
`count` single-use pairs (public and secret halves alike), but the
exported wrapper fixes `count := 1`: it always returns exactly one
public pair and boxes exactly one secret pair. -/
theorem C5_one_commitment_share {q : ℕ} (r : ℕ → ZMod q × ZMod q) (st : HStore (SecretCommitmentShareList q)) (uuid : ℕ) :
    (gen_commitment_share_lists r st uuid).2.public_comm_share.shares.length = 1
      ∧ ((gen_commitment_share_lists r st uuid).1.get?
          ((gen_commitment_share_lists r st uuid).2.secret_comm_share_handle)).map
            (fun l => l.shares.length) = some 1
      ∧ ∀ idx count : ℕ,
          (generate_commitment_share_lists r idx count).1.shares.length = count
          ∧ (generate_commitment_share_lists r idx count).2.shares.length = count := by
  refine ⟨by simp [gen_commitment_share_lists, generate_commitment_share_lists], ?_, ?_⟩
  · have := HStore.get?_alloc st ((generate_commitment_share_lists r uuid 1).2)
    simp only [gen_commitment_share_lists]
    rw [this]
    simp [generate_commitment_share_lists]
  · intro idx count
    constructor <;> simp [generate_commitment_share_lists]

/-- C2.  When the registered signer set is smaller than the threshold,
the spec-modelled `finalize` fails with `InsufficientSigners`, and the
exported `aggregate_signatures` (which wraps that failure into its
generic finalize error) returns an error for every partial-signature
input — it never returns a signature. -/
theorem C2_insufficient_signers {q : ℕ} (H : HashModel q)
    (st : HStore (AggState q)) (h : ℕ) (agg : AggState q)
    (hget : st.get? h = some agg) (hlt : agg.signers.length < agg.t) :
    finalizeAgg agg = .error AggErr.insufficientSigners
      ∧ ∀ sigs : List (PartialSigWrapper q), ∀ b,
          (aggregate_signatures H st h sigs).2 ≠ RRes.ok b := by
  have hfin : finalizeAgg agg = .error AggErr.insufficientSigners := by
    unfold finalizeAgg
    rw [if_pos hlt]
  refine ⟨hfin, fun sigs b => ?_⟩
  unfold aggregate_signatures
  have htake : st.take h = (some agg, st.remove h) := by
    simp [HStore.take, hget]
  simp only [htake]
  cases hsq : seqOpt sigs with
  | none => simp
  | some ps =>
    simp only [hfin]
    simp

/-- Witness for C2: an aggregator with an empty signer set and
threshold 2. -/
theorem C2_insufficient_signers_witness :
    finalizeAgg (⟨3, 2, 0, [], []⟩ : AggState 5) = .error AggErr.insufficientSigners
      ∧ ∀ sigs : List (PartialSigWrapper 5), ∀ b,
          (aggregate_signatures W5
            ((HStore.empty).alloc (⟨3, 2, 0, [], []⟩ : AggState 5)).2
            ((HStore.empty).alloc (⟨3, 2, 0, [], []⟩ : AggState 5)).1 sigs).2
          ≠ RRes.ok b :=
  C2_insufficient_signers W5
    ((HStore.empty).alloc (⟨3, 2, 0, [], []⟩ : AggState 5)).2
    ((HStore.empty).alloc (⟨3, 2, 0, [], []⟩ : AggState 5)).1
    ⟨3, 2, 0, [], []⟩
    (HStore.get?_alloc HStore.empty (⟨3, 2, 0, [], []⟩ : AggState 5)) (by decide)

/-- C3 counterexample.  With two peers whose proofs of secret key both
fail verification, the exported round-one call fails with the generic
`failed to verify participants!` error of its short-circuiting
pre-check, which names no participant index — not with an error
enumerating the offenders. -/
theorem C3_all_offenders_counterexample :
    (generate_their_shares_and_verify_participants WFail
        ⟨2, [(1, coeffList 2 (crW 1))]⟩ HStore.empty
        (honestPart WFail 2 crW 1).wrap 1
        [(honestPart WFail 2 crW 2).wrap, (honestPart WFail 2 crW 3).wrap] 3 2).2.2
      = RRes.err Err.verifyParticipantsFailed
    ∧ ¬ ∃ idxs : List ℕ,
        (generate_their_shares_and_verify_participants WFail
          ⟨2, [(1, coeffList 2 (crW 1))]⟩ HStore.empty
          (honestPart WFail 2 crW 1).wrap 1
          [(honestPart WFail 2 crW 2).wrap, (honestPart WFail 2 crW 3).wrap] 3 2).2.2
        = RRes.err (Err.misbehaving idxs) := by
  have hres : (generate_their_shares_and_verify_participants WFail
      ⟨2, [(1, coeffList 2 (crW 1))]⟩ HStore.empty
      (honestPart WFail 2 crW 1).wrap 1
      [(honestPart WFail 2 crW 2).wrap, (honestPart WFail 2 crW 3).wrap] 3 2).2.2
      = RRes.err Err.verifyParticipantsFailed := by decide
  refine ⟨hres, ?_⟩
  rintro ⟨idxs, h⟩
  rw [hres] at h
  cases h

/-- C3 as amended.  Whenever any peer in the input list fails the
wrapper's inline admission check, the call fails with the single
generic `failed to verify participants!` error (no offender indices):
the short-circuiting collect fires before the index-accumulating
frost-dalek constructor is ever reached. -/
theorem C3_generic_verify_error {q : ℕ} (H : HashModel q)
    (stC : HStore (Coefficients q)) (stD : HStore (DkgR1 q))
    (me : ParticipantWrapper q) (h : ℕ) (parts : List (ParticipantWrapper q))
    (n t : ℕ) (w : ParticipantWrapper q)
    (hw : w ∈ parts) (hfail : participantCheck H w = none) :
    (generate_their_shares_and_verify_participants H stC stD me h parts n t).2.2
      = RRes.err Err.verifyParticipantsFailed := by
  unfold generate_their_shares_and_verify_participants
  simp only [collectVerified_none H parts w hw hfail]

/-- Witness for the amended C3: one failing peer. -/
theorem C3_generic_verify_error_witness :
    (generate_their_shares_and_verify_participants WFail
        ⟨2, [(1, coeffList 2 (crW 1))]⟩ HStore.empty
        (honestPart WFail 2 crW 1).wrap 1
        [(honestPart WFail 2 crW 2).wrap] 3 2).2.2
      = RRes.err Err.verifyParticipantsFailed :=
  C3_generic_verify_error WFail ⟨2, [(1, coeffList 2 (crW 1))]⟩ HStore.empty
    (honestPart WFail 2 crW 1).wrap 1 [(honestPart WFail 2 crW 2).wrap] 3 2
    (honestPart WFail 2 crW 2).wrap (by decide) (by decide)

/-- C9.  Whenever the exported round-one call returns a recoverable
error, both heaps are left untouched: in particular the `Coefficients`
box behind `coefficients_handle` is neither consumed nor destroyed, so
the caller may adjust the participant set and retry with the same
handle.  (The wrapper's own pre-check error returns before the handle
is touched, and the later index-reporting failure of the key-generation
constructor is unreachable because the constructor re-runs exactly the
admission check the pre-check already passed.) -/
theorem C9_error_preserves_state {q : ℕ} (H : HashModel q)
    (stC : HStore (Coefficients q)) (stD : HStore (DkgR1 q))
    (me : ParticipantWrapper q) (h : ℕ) (parts : List (ParticipantWrapper q))
    (n t : ℕ) (e : Err)
    (herr : (generate_their_shares_and_verify_participants H stC stD me h parts n t).2.2
      = RRes.err e) :
    (generate_their_shares_and_verify_participants H stC stD me h parts n t).1 = stC
    ∧ (generate_their_shares_and_verify_participants H stC stD me h parts n t).2.1 = stD := by
  unfold generate_their_shares_and_verify_participants at herr ⊢
  cases hcv : collectVerified H parts with
  | none => simp [hcv]
  | some ps =>
    rw [hcv] at herr
    cases hget : stC.get? h with
    | none =>
      have htk : stC.take h = (none, stC.remove h) := by simp [HStore.take, hget]
      simp only [htk] at herr
      simp at herr
    | some cs =>
      have htk : stC.take h = (some cs, stC.remove h) := by simp [HStore.take, hget]
      have hok := collectVerified_ok H parts ps hcv
      simp only [htk, dkgNew_ok H me.index cs ps hok] at herr
      simp at herr

/-- Witness for C9: the failing call of the C3 scenario leaves both
heaps exactly as they were. -/
theorem C9_error_preserves_state_witness :
    (generate_their_shares_and_verify_participants WFail
        ⟨2, [(1, coeffList 2 (crW 1))]⟩ HStore.empty
        (honestPart WFail 2 crW 1).wrap 1
        [(honestPart WFail 2 crW 3).wrap] 3 2).1 = ⟨2, [(1, coeffList 2 (crW 1))]⟩
    ∧ (generate_their_shares_and_verify_participants WFail
        ⟨2, [(1, coeffList 2 (crW 1))]⟩ HStore.empty
        (honestPart WFail 2 crW 1).wrap 1
        [(honestPart WFail 2 crW 3).wrap] 3 2).2.1 = HStore.empty :=
  C9_error_preserves_state WFail ⟨2, [(1, coeffList 2 (crW 1))]⟩ HStore.empty
    (honestPart WFail 2 crW 1).wrap 1 [(honestPart WFail 2 crW 3).wrap] 3 2
    Err.verifyParticipantsFailed (by decide)

/-- C4 counterexample.  A first `signPartial` through a fresh
commitment-share handle succeeds, but the second attempt through the
same handle is a use-after-release contract violation (the box was
consumed and dropped by the first call), not a recoverable
`NoUnusedCommitmentShares` signing error. -/
theorem C4_nonce_reuse_counterexample :
    (signPartial W5 (signerGcl nrW 1).1 (some ⟨1, 2⟩) (enc32 3) [0] 1
        [some (sigRec nrW 1)]).2 = RRes.ok ⟨1, 4⟩
    ∧ (signPartial W5
        (signPartial W5 (signerGcl nrW 1).1 (some ⟨1, 2⟩) (enc32 3) [0] 1
          [some (sigRec nrW 1)]).1
        (some ⟨1, 2⟩) (enc32 3) [0] 1 [some (sigRec nrW 1)]).2
      = RRes.fatal FatalKind.useAfterRelease
    ∧ RRes.fatal (α := PartialSig 5) FatalKind.useAfterRelease
      ≠ RRes.err (Err.signFailed SignErr.noUnusedCommitmentShares) := by
  refine ⟨by decide, by decide, by decide⟩

/-- C4 as amended.  With otherwise valid inputs and a handle holding a
single-pair commitment-share list, the first `signPartial` consumes the
pair and succeeds, the handle is dead afterwards (`get?` is `none`),
and a second attempt through the same handle is the fatal
use-after-release outcome of `from_handle` on a dangling pointer — not
a `NoUnusedCommitmentShares` error. -/
theorem C4_second_use_is_fatal {q : ℕ} (H : HashModel q)
    (st : HStore (SecretCommitmentShareList q)) (h : ℕ) (sk : SecretKey q)
    (gkB msg : Buff q) (signers : List (SignerWrapper q)) (idx0 : ℕ)
    (np : NoncePair q) (gk : ZMod q) (sgs : List (PubSigner q))
    (hget : st.get? h = some ⟨idx0, [np]⟩) (hgk : dec32 gkB = some gk)
    (hsg : seqOpt signers = some sgs) :
    (∃ p, (signPartial H st (some sk) gkB msg h signers).2 = RRes.ok p)
    ∧ (signPartial H st (some sk) gkB msg h signers).1.get? h = none
    ∧ (signPartial H ((signPartial H st (some sk) gkB msg h signers).1)
        (some sk) gkB msg h signers).2 = RRes.fatal FatalKind.useAfterRelease := by
  have htake : st.take h = (some ⟨idx0, [np]⟩, st.remove h) := by
    simp [HStore.take, hget]
  have htake2 : (st.remove h).take h = (none, (st.remove h).remove h) := by
    simp [HStore.take, HStore.get?_remove]
  unfold signPartial
  simp only [hgk, htake, hsg, skSign, List.get?_cons_zero, htake2]
  refine ⟨⟨_, rfl⟩, HStore.get?_remove st h, trivial⟩

/-- Witness for the amended C4, at the concrete counterexample input. -/
theorem C4_second_use_is_fatal_witness :
    (∃ p, (signPartial W5 (signerGcl nrW 1).1 (some ⟨1, 2⟩) (enc32 3) [0] 1
        [some (sigRec nrW 1)]).2 = RRes.ok p)
    ∧ (signPartial W5 (signerGcl nrW 1).1 (some ⟨1, 2⟩) (enc32 3) [0] 1
        [some (sigRec nrW 1)]).1.get? 1 = none
    ∧ (signPartial W5
        (signPartial W5 (signerGcl nrW 1).1 (some ⟨1, 2⟩) (enc32 3) [0] 1
          [some (sigRec nrW 1)]).1
        (some ⟨1, 2⟩) (enc32 3) [0] 1 [some (sigRec nrW 1)]).2
      = RRes.fatal FatalKind.useAfterRelease :=
  C4_second_use_is_fatal W5 (signerGcl nrW 1).1 1 ⟨1, 2⟩ (enc32 3) [0]
    [some (sigRec nrW 1)] 1 ⟨2, 2⟩ 3 [sigRec nrW 1]
    (by decide) (by decide) (by decide)

/-- C6.  `validate_signature` has an observable failure mode beyond its
recoverable errors: with a well-formed group key and a signature buffer
that is not exactly 64 wide, the `copy_from_slice` of lib.rs line 257
panics (and line 253's `.unwrap()` is a second panic site), where the
claim and spec promise a recoverable `SignatureInvalid`-style error. -/
theorem C6_validate_signature_panics :
    validate_signature W5 (enc32 3) (List.replicate 63 0) []
      = RRes.fatal FatalKind.panicked := by
  decide

lemma zip_append_left_of_le {α β : Type} :
    ∀ (l1 : List α) (l2 : List β) (ex : List α), l2.length ≤ l1.length →
      (l1 ++ ex).zip l2 = l1.zip l2
  | _, [], _, _ => by simp
  | [], _ :: _, _, h => by simp at h
  | a :: l1, b :: l2, ex, h => by
    simp only [List.cons_append, List.zip_cons_cons]
    rw [zip_append_left_of_le l1 l2 ex (by simpa using h)]

lemma zip_append_right_of_le {α β : Type} :
    ∀ (l1 : List α) (l2 : List β) (ex : List β), l1.length ≤ l2.length →
      l1.zip (l2 ++ ex) = l1.zip l2
  | [], _, _, _ => by simp
  | _ :: _, [], _, h => by simp at h
  | a :: l1, b :: l2, ex, h => by
    simp only [List.cons_append, List.zip_cons_cons]
    rw [zip_append_right_of_le l1 l2 ex (by simpa using h)]

/-- C7.  Registering the same set of (pairwise index-distinct) signers
through `include_signer` in any permuted order yields the same
aggregator — and hence `aggregate_signatures` produces an identical
final signature for the same partial signatures. -/
theorem C7_order_independence {q : ℕ} (H : HashModel q)
    (st : HStore (AggState q)) (thr nsig : ℕ) (gkB msg : Buff q)
    (W1 W2 : List ((ZMod q × ZMod q) × IndividualPublicKey q))
    (h : ℕ) (sigs : List (PartialSigWrapper q))
    (hperm : List.Perm W1 W2)
    (hdist : (W1.map (fun w => w.2.index)).Nodup) :
    get_aggregator_signers st thr nsig gkB msg
        (W1.map (fun w => some w.1)) (W1.map (fun w => some w.2))
      = get_aggregator_signers st thr nsig gkB msg
          (W2.map (fun w => some w.1)) (W2.map (fun w => some w.2))
    ∧ aggregate_signatures H
        (get_aggregator_signers st thr nsig gkB msg
          (W1.map (fun w => some w.1)) (W1.map (fun w => some w.2))).1 h sigs
      = aggregate_signatures H
          (get_aggregator_signers st thr nsig gkB msg
            (W2.map (fun w => some w.1)) (W2.map (fun w => some w.2))).1 h sigs := by
  have hreg : ∀ W : List ((ZMod q × ZMod q) × IndividualPublicKey q),
      W.foldl (fun acc2 w =>
        includeSigner acc2 ⟨w.2.index, w.1.1, w.1.2⟩) ([] : List (PubSigner q))
      = registerAll (W.map (fun w => ⟨w.2.index, w.1.1, w.1.2⟩)) := by
    intro W
    rw [registerAll, List.foldl_map]
  have hpair : (W1.map (fun w =>
      (⟨w.2.index, w.1.1, w.1.2⟩ : PubSigner q))).Pairwise
        (fun a b => a.index ≠ b.index) := by
    rw [List.pairwise_map]
    have := (List.pairwise_map (R := (· ≠ ·))).mp hdist
    exact this.imp (fun hab => hab)
  have hmain : get_aggregator_signers st thr nsig gkB msg
      (W1.map (fun w => some w.1)) (W1.map (fun w => some w.2))
      = get_aggregator_signers st thr nsig gkB msg
        (W2.map (fun w => some w.1)) (W2.map (fun w => some w.2)) := by
    unfold get_aggregator_signers
    cases hgk : dec32 gkB with
    | none => rfl
    | some gk =>
      rw [zip_map_pair, zip_map_pair,
        includeLoop_map W1 (fun w => w.1) (fun w => w.2) [],
        includeLoop_map W2 (fun w => w.1) (fun w => w.2) [],
        hreg W1, hreg W2,
        registerAll_eq_of_perm _ _
          (hperm.map (fun w => (⟨w.2.index, w.1.1, w.1.2⟩ : PubSigner q))) hpair]
  exact ⟨hmain, by rw [hmain]⟩

/-- Witness for C7: two signers registered in the two possible orders
give identical aggregators and identical aggregation results. -/
theorem C7_order_independence_witness :
    get_aggregator_signers (HStore.empty : HStore (AggState 5)) 2 3 (enc32 3) [0]
        (WPairs.map (fun w => some w.1)) (WPairs.map (fun w => some w.2))
      = get_aggregator_signers HStore.empty 2 3 (enc32 3) [0]
          (WPairsRev.map (fun w => some w.1)) (WPairsRev.map (fun w => some w.2))
    ∧ aggregate_signatures W5
        (get_aggregator_signers HStore.empty 2 3 (enc32 3) [0]
          (WPairs.map (fun w => some w.1)) (WPairs.map (fun w => some w.2))).1 1
        [some ⟨1, 2⟩, some ⟨2, 3⟩]
      = aggregate_signatures W5
          (get_aggregator_signers HStore.empty 2 3 (enc32 3) [0]
            (WPairsRev.map (fun w => some w.1)) (WPairsRev.map (fun w => some w.2))).1 1
          [some ⟨1, 2⟩, some ⟨2, 3⟩] :=
  C7_order_independence W5 HStore.empty 2 3 (enc32 3) [0] WPairs WPairsRev
    1 [some ⟨1, 2⟩, some ⟨2, 3⟩] (by decide) (by decide)

/-- C10.  `get_aggregator_signers` zips the commitment and public-key
vectors: excess entries of the longer vector are silently dropped
(appending extra entries to either vector does not change the result),
and on well-formed element-wise pairs the call succeeds, registering
exactly the zipped pairs. -/
theorem C10_zip_truncates {q : ℕ} (st : HStore (AggState q))
    (thr nsig : ℕ) (gkB msg : Buff q)
    (W : List ((ZMod q × ZMod q) × IndividualPublicKey q))
    (Cex : List (DualRistrettoWrap q)) (Pex : List (PublicKeyWrapper q))
    (gk : ZMod q) (hgk : dec32 gkB = some gk) :
    get_aggregator_signers st thr nsig gkB msg
        (W.map (fun w => some w.1) ++ Cex) (W.map (fun w => some w.2))
      = get_aggregator_signers st thr nsig gkB msg
          (W.map (fun w => some w.1)) (W.map (fun w => some w.2))
    ∧ get_aggregator_signers st thr nsig gkB msg
        (W.map (fun w => some w.1)) (W.map (fun w => some w.2) ++ Pex)
      = get_aggregator_signers st thr nsig gkB msg
          (W.map (fun w => some w.1)) (W.map (fun w => some w.2))
    ∧ (get_aggregator_signers st thr nsig gkB msg
        (W.map (fun w => some w.1)) (W.map (fun w => some w.2))).2
      = RRes.ok ⟨(registerAll (W.map (fun w =>
          (⟨w.2.index, w.1.1, w.1.2⟩ : PubSigner q)))).map some,
          st.next⟩ := by
  have hlen : (W.map (fun w => some w.1)).length = (W.map (fun w => some w.2)).length := by
    simp
  refine ⟨?_, ?_, ?_⟩
  · unfold get_aggregator_signers
    rw [zip_append_left_of_le _ _ Cex (le_of_eq hlen.symm)]
  · unfold get_aggregator_signers
    rw [zip_append_right_of_le _ _ Pex (le_of_eq hlen)]
  · unfold get_aggregator_signers
    rw [hgk, zip_map_pair, includeLoop_map W (fun w => w.1) (fun w => w.2) [],
      registerAll, List.foldl_map]
    rfl

/-- Witness for C10: a two-entry pairing with one excess commitment and
one excess public key. -/
theorem C10_zip_truncates_witness :
    get_aggregator_signers (HStore.empty : HStore (AggState 5)) 2 3 (enc32 3) [0]
        (WPairs.map (fun w => some w.1) ++ [some (0, 0)])
        (WPairs.map (fun w => some w.2))
      = get_aggregator_signers HStore.empty 2 3 (enc32 3) [0]
          (WPairs.map (fun w => some w.1)) (WPairs.map (fun w => some w.2))
    ∧ get_aggregator_signers HStore.empty 2 3 (enc32 3) [0]
        (WPairs.map (fun w => some w.1))
        (WPairs.map (fun w => some w.2) ++ [some ⟨4, 0⟩])
      = get_aggregator_signers HStore.empty 2 3 (enc32 3) [0]
          (WPairs.map (fun w => some w.1)) (WPairs.map (fun w => some w.2))
    ∧ (get_aggregator_signers HStore.empty 2 3 (enc32 3) [0]
        (WPairs.map (fun w => some w.1)) (WPairs.map (fun w => some w.2))).2
      = RRes.ok ⟨(registerAll (WPairs.map
          (fun w => (⟨w.2.index, w.1.1, w.1.2⟩ : PubSigner 5)))).map some,
          (HStore.empty : HStore (AggState 5)).next⟩ :=
  C10_zip_truncates HStore.empty 2 3 (enc32 3) [0]
    WPairs [some (0, 0)] [some ⟨4, 0⟩] 3 (by decide)

end FrostJs
